import Mathlib

/-!
Verification of the image-rewriting scripts `hack/inject-release-images.py`
(the earliest variant) and `hack/replace-images.py` (the later variant) of the
drogue-cloud repository.  Python strings are modelled as Lean `String`
(a wrapper around `List Char`), Python's string methods by explicit functions
on the character list, and the decoded YAML documents by a nested inductive
type of mappings, sequences and scalars.  Python dictionaries are modelled as
association lists in insertion order: updating an existing key keeps its
position, adding a new key appends at the end, exactly as CPython does.
A run that raises an uncaught exception (calling `.startswith`/`.endswith`
on a non-string value) is modelled by `Option.none`.
-/

namespace Drogue

/-! ### Python string primitives -/

/-- Python `s.endswith(t)`. -/
def pyEndswith (s t : String) : Bool :=
  t.data.isSuffixOf s.data

/-- Python `s.startswith(t)`. -/
def pyStartswith (s t : String) : Bool :=
  t.data.isPrefixOf s.data

/-- Python `s[:-n]` for `n ≥ 1` (drop the last `n` characters; all of `s`
when `n ≥ len(s)`, matching Python's clamping). -/
def pySliceToNeg (s : String) (n : Nat) : String :=
  ⟨s.data.take (s.data.length - n)⟩

/-- Python `s[n:]` (drop the first `n` characters). -/
def pyDropN (s : String) (n : Nat) : String :=
  ⟨s.data.drop n⟩

/-! ### The YAML value model -/

/-- A decoded YAML value as produced by `yaml.load_all`: scalars, sequences
and mappings (string keys, in insertion order). -/
inductive Yaml where
  | str : String → Yaml
  | int : Int → Yaml
  | bool : Bool → Yaml
  | null : Yaml
  | seq : List Yaml → Yaml
  | map : List (String × Yaml) → Yaml
deriving Repr

/-- Python `node[key]` / `key in node` on a dict: the value at the first
(in a real dict: the only) occurrence of `key`. -/
def getKey : List (String × Yaml) → String → Option Yaml
  | [], _ => none
  | (k, v) :: rest, key => if k = key then some v else getKey rest key

/-- Python `node[key] = w` on a dict: overwrite the value in place when the
key is present, append the new binding otherwise. -/
def setKey : List (String × Yaml) → String → Yaml → List (String × Yaml)
  | [], key, w => [(key, w)]
  | (k, v) :: rest, key, w =>
      if k = key then (k, w) :: rest else (k, v) :: setKey rest key w

/-- The string payload of a scalar; `none` for every value on which Python
would raise `AttributeError` when calling a string method. -/
def asStr : Yaml → Option String
  | Yaml.str s => some s
  | _ => none

/-! ### Sizes, used as termination measures for the traversals.
The `map` case reserves headroom of 3 because the traversal recurses into the
mapping after overwriting up to two values with string scalars (of size 1). -/

mutual

def ysize : Yaml → Nat
  | Yaml.seq l => 1 + lsize l
  | Yaml.map m => 3 + msize m
  | _ => 1

def msize : List (String × Yaml) → Nat
  | [] => 0
  | kv :: rest => 1 + ysize kv.2 + msize rest

def lsize : List Yaml → Nat
  | [] => 0
  | v :: rest => 1 + ysize v + lsize rest

end

/-! ### `hack/inject-release-images.py` -/

/-- `translate_image` of `inject-release-images.py` (lines 14-24). -/
def translate_image_inject (version original : String) : String :=
  if !(pyEndswith original ":latest") then original
  else
    let suffix := ":latest"
    if pyEndswith original suffix then
      pySliceToNeg original suffix.length ++ ":" ++ version
    else original

/-! ### `hack/replace-images.py`, string level -/

/-- The fixed registry prefix of `replace-images.py` (line 22). -/
def ghcrPfx : String := "ghcr.io/drogue-iot"

/-- The literal tag marker (line 23 of `replace-images.py`). -/
def latestSfx : String := ":latest"

/-- Truthiness of the optional `org` command-line argument: `None` and the
empty string are falsy in Python. -/
def orgActive : Option String → Bool
  | none => false
  | some s => !(s == "")

/-- `is_drogue_image` of `replace-images.py` (lines 26-31). -/
def is_drogue_image (image : String) : Bool :=
  if !(pyStartswith image ghcrPfx) then false
  else if !(pyEndswith image latestSfx) then false
  else true

/-- `translate_image` of `replace-images.py` (lines 34-43). -/
def translate_image (org : Option String) (version original : String) : String :=
  let original1 :=
    if orgActive org && pyStartswith original ghcrPfx then
      org.getD "" ++ pyDropN original ghcrPfx.length
    else original
  if pyEndswith original1 latestSfx then
    pySliceToNeg original1 latestSfx.length ++ ":" ++ version
  else original1

/-- The tag-substitution stage alone (lines 40-43 of `replace-images.py`):
replace a trailing `:latest` by `:` + the version. -/
def tagSubst (version s : String) : String :=
  if pyEndswith s latestSfx then
    pySliceToNeg s latestSfx.length ++ ":" ++ version
  else s

/-! ### Size lemmas needed for the termination of the traversals -/

theorem one_le_ysize (y : Yaml) : 1 ≤ ysize y := by
  cases y <;> simp [ysize] <;> omega

theorem msize_setKey_str_le (m : List (String × Yaml)) (k s : String) :
    msize (setKey m k (Yaml.str s)) ≤ msize m + 2 := by
  induction m with
  | nil => simp [setKey, msize, ysize]
  | cons kv rest ih =>
      by_cases h : kv.1 = k
      · obtain ⟨a, b⟩ := kv
        simp only at h
        simp [setKey, h, msize, ysize]
        have := one_le_ysize b
        omega
      · obtain ⟨a, b⟩ := kv
        simp only at h
        simp [setKey, h, msize]
        omega

theorem msize_setKey_str_of_mem (m : List (String × Yaml)) (k s : String)
    (h : (getKey m k).isSome) :
    msize (setKey m k (Yaml.str s)) ≤ msize m := by
  induction m with
  | nil => simp [getKey] at h
  | cons kv rest ih =>
      obtain ⟨a, b⟩ := kv
      by_cases hk : a = k
      · simp [setKey, hk, msize, ysize]
        have := one_le_ysize b
        omega
      · simp [getKey, hk] at h
        simp [setKey, hk, msize]
        exact ih h

theorem getKey_setKey_same (m : List (String × Yaml)) (k : String) (w : Yaml) :
    getKey (setKey m k w) k = some w := by
  induction m with
  | nil => simp [setKey, getKey]
  | cons kv rest ih =>
      obtain ⟨a, b⟩ := kv
      by_cases hk : a = k
      · simp [setKey, hk, getKey]
      · simp [setKey, hk, getKey, ih]

theorem getKey_setKey_of_ne (m : List (String × Yaml)) (k k' : String) (w : Yaml)
    (h : k' ≠ k) : getKey (setKey m k w) k' = getKey m k' := by
  induction m with
  | nil => simp [setKey, getKey, Ne.symm h]
  | cons kv rest ih =>
      obtain ⟨a, b⟩ := kv
      by_cases hk : a = k
      · subst hk
        simp [setKey, getKey, Ne.symm h, ih]
      · simp [setKey, hk, getKey]
        by_cases ha : a = k'
        · simp [ha]
        · simp [ha, ih]

theorem setKey_of_getKey_eq (m : List (String × Yaml)) (k : String) (w : Yaml)
    (h : getKey m k = some w) : setKey m k w = m := by
  induction m with
  | nil => simp [getKey] at h
  | cons kv rest ih =>
      obtain ⟨a, b⟩ := kv
      by_cases hk : a = k
      · simp [getKey, hk] at h
        simp [setKey, hk, h]
      · simp [getKey, hk] at h
        simp [setKey, hk, ih h]

theorem mem_setKey (m : List (String × Yaml)) (k : String) (w : Yaml)
    (kv : String × Yaml) (h : kv ∈ setKey m k w) : kv.2 = w ∨ kv ∈ m := by
  induction m with
  | nil =>
      simp [setKey] at h
      simp [h]
  | cons hd rest ih =>
      obtain ⟨a, b⟩ := hd
      by_cases hk : a = k
      · simp [setKey, hk] at h
        rcases h with h | h
        · simp [h]
        · right; simp [h]
      · simp [setKey, hk] at h
        rcases h with h | h
        · right; simp [h]
        · rcases ih h with h' | h'
          · exact Or.inl h'
          · right; simp [h']

theorem ysize_lt_of_mem_map (m : List (String × Yaml)) (kv : String × Yaml)
    (h : kv ∈ m) : ysize kv.2 < 3 + msize m := by
  induction m with
  | nil => simp at h
  | cons hd rest ih =>
      rcases List.mem_cons.mp h with h | h
      · subst h
        simp [msize]
        omega
      · have := ih h
        simp [msize]
        omega

theorem ysize_lt_of_mem_seq (l : List Yaml) (y : Yaml) (h : y ∈ l) :
    ysize y < 1 + lsize l := by
  induction l with
  | nil => simp at h
  | cons hd rest ih =>
      rcases List.mem_cons.mp h with h | h
      · subst h
        simp [lsize]
        omega
      · have := ih h
        simp [lsize]
        omega

/-! ### Document traversal, `inject-release-images.py` (lines 27-37) -/

/-- The body of the `if "image" in node:` block of `replace_images` in
`inject-release-images.py` (lines 29-31): rewrite the image and
unconditionally overwrite the pull policy.  `none` models the
`AttributeError` raised by `.endswith` on a non-string image value. -/
def mapStepI (version policy : String) (m : List (String × Yaml)) :
    Option (List (String × Yaml)) :=
  match getKey m "image" with
  | none => some m
  | some w =>
      match asStr w with
      | none => none
      | some s =>
          some (setKey (setKey m "image" (Yaml.str (translate_image_inject version s)))
            "imagePullPolicy" (Yaml.str policy))

theorem msize_mapStepI (version policy : String) (m m1 : List (String × Yaml))
    (h : mapStepI version policy m = some m1) : msize m1 ≤ msize m + 2 := by
  unfold mapStepI at h
  split at h
  · simp only [Option.some.injEq] at h
    subst h
    omega
  · rename_i w hg
    split at h
    · exact absurd h (by simp)
    · rename_i s hs
      simp only [Option.some.injEq] at h
      subst h
      calc msize (setKey (setKey m "image" (Yaml.str (translate_image_inject version s)))
              "imagePullPolicy" (Yaml.str policy))
          ≤ msize (setKey m "image" (Yaml.str (translate_image_inject version s))) + 2 :=
            msize_setKey_str_le _ _ _
        _ ≤ msize m + 2 := by
            have := msize_setKey_str_of_mem m "image"
              (translate_image_inject version s) (by simp [hg])
            omega

mutual

/-- `replace_images` of `inject-release-images.py` (lines 27-37).  The dict
is rewritten first and the traversal then recurses into the values of the
rewritten dict, as the Python loop over `node.items()` does. -/
def replace_images_inject (version policy : String) : Yaml → Option Yaml
  | Yaml.map m =>
      match h : mapStepI version policy m with
      | none => none
      | some m1 => Option.map Yaml.map (goPairsI version policy m1)
  | Yaml.seq l => Option.map Yaml.seq (goItemsI version policy l)
  | y => some y
termination_by y => ysize y
decreasing_by
  all_goals try simp [ysize, msize, lsize]
  all_goals try omega
  all_goals (have h2 := msize_mapStepI version policy m m1 h; omega)

/-- The loop `for key, value in node.items(): replace_images(value)`. -/
def goPairsI (version policy : String) :
    List (String × Yaml) → Option (List (String × Yaml))
  | [] => some []
  | (k, v) :: rest =>
      match replace_images_inject version policy v, goPairsI version policy rest with
      | some v1, some rest1 => some ((k, v1) :: rest1)
      | _, _ => none
termination_by l => msize l
decreasing_by
  all_goals try simp [ysize, msize, lsize]
  all_goals try omega

/-- The loop `for item in node: replace_images(item)`. -/
def goItemsI (version policy : String) : List Yaml → Option (List Yaml)
  | [] => some []
  | v :: rest =>
      match replace_images_inject version policy v, goItemsI version policy rest with
      | some v1, some rest1 => some (v1 :: rest1)
      | _, _ => none
termination_by l => lsize l
decreasing_by
  all_goals try simp [ysize, msize, lsize]
  all_goals try omega

end

/-! ### Document traversal, `replace-images.py` (lines 46-57) -/

/-- The body of the `if "image" in node:` block of `replace_images` in
`replace-images.py` (lines 48-51): only a recognized drogue image is
rewritten, and only then is the pull policy overwritten.  `none` models the
`AttributeError` raised by `.startswith` on a non-string image value. -/
def mapStepR (version policy : String) (org : Option String)
    (m : List (String × Yaml)) : Option (List (String × Yaml)) :=
  match getKey m "image" with
  | none => some m
  | some w =>
      match asStr w with
      | none => none
      | some s =>
          if is_drogue_image s then
            some (setKey (setKey m "image" (Yaml.str (translate_image org version s)))
              "imagePullPolicy" (Yaml.str policy))
          else some m

theorem msize_mapStepR (version policy : String) (org : Option String)
    (m m1 : List (String × Yaml))
    (h : mapStepR version policy org m = some m1) : msize m1 ≤ msize m + 2 := by
  unfold mapStepR at h
  split at h
  · simp only [Option.some.injEq] at h
    subst h
    omega
  · rename_i w hg
    split at h
    · exact absurd h (by simp)
    · rename_i s hs
      split at h
      · simp only [Option.some.injEq] at h
        subst h
        calc msize (setKey (setKey m "image" (Yaml.str (translate_image org version s)))
                "imagePullPolicy" (Yaml.str policy))
            ≤ msize (setKey m "image" (Yaml.str (translate_image org version s))) + 2 :=
              msize_setKey_str_le _ _ _
          _ ≤ msize m + 2 := by
              have := msize_setKey_str_of_mem m "image"
                (translate_image org version s) (by simp [hg])
              omega
      · simp only [Option.some.injEq] at h
        subst h
        omega

mutual

/-- `replace_images` of `replace-images.py` (lines 46-57).  The dict is
rewritten first and the traversal then recurses into the values of the
rewritten dict, as the Python loop over `node.items()` does. -/
def replace_images (version policy : String) (org : Option String) :
    Yaml → Option Yaml
  | Yaml.map m =>
      match h : mapStepR version policy org m with
      | none => none
      | some m1 => Option.map Yaml.map (goPairsR version policy org m1)
  | Yaml.seq l => Option.map Yaml.seq (goItemsR version policy org l)
  | y => some y
termination_by y => ysize y
decreasing_by
  all_goals try simp [ysize, msize, lsize]
  all_goals try omega
  all_goals (have h2 := msize_mapStepR version policy org m m1 h; omega)

/-- The loop `for key, value in node.items(): replace_images(value)`. -/
def goPairsR (version policy : String) (org : Option String) :
    List (String × Yaml) → Option (List (String × Yaml))
  | [] => some []
  | (k, v) :: rest =>
      match replace_images version policy org v, goPairsR version policy org rest with
      | some v1, some rest1 => some ((k, v1) :: rest1)
      | _, _ => none
termination_by l => msize l
decreasing_by
  all_goals try simp [ysize, msize, lsize]
  all_goals try omega

/-- The loop `for item in node: replace_images(item)`. -/
def goItemsR (version policy : String) (org : Option String) :
    List Yaml → Option (List Yaml)
  | [] => some []
  | v :: rest =>
      match replace_images version policy org v, goItemsR version policy org rest with
      | some v1, some rest1 => some (v1 :: rest1)
      | _, _ => none
termination_by l => lsize l
decreasing_by
  all_goals try simp [ysize, msize, lsize]
  all_goals try omega

end

/-! ### Unfolding equations for the traversals -/

theorem rii_str (version policy s : String) :
    replace_images_inject version policy (Yaml.str s) = some (Yaml.str s) := by
  rw [replace_images_inject] <;> simp

theorem rii_int (version policy : String) (n : Int) :
    replace_images_inject version policy (Yaml.int n) = some (Yaml.int n) := by
  rw [replace_images_inject] <;> simp

theorem rii_bool (version policy : String) (b : Bool) :
    replace_images_inject version policy (Yaml.bool b) = some (Yaml.bool b) := by
  rw [replace_images_inject] <;> simp

theorem rii_null (version policy : String) :
    replace_images_inject version policy Yaml.null = some Yaml.null := by
  rw [replace_images_inject] <;> simp

theorem rii_seq (version policy : String) (l : List Yaml) :
    replace_images_inject version policy (Yaml.seq l) =
      Option.map Yaml.seq (goItemsI version policy l) := by
  rw [replace_images_inject] <;> simp

theorem rii_map_none (version policy : String) (m : List (String × Yaml))
    (h : mapStepI version policy m = none) :
    replace_images_inject version policy (Yaml.map m) = none := by
  rw [replace_images_inject]
  split <;> simp_all

theorem rii_map_some (version policy : String) (m m1 : List (String × Yaml))
    (h : mapStepI version policy m = some m1) :
    replace_images_inject version policy (Yaml.map m) =
      Option.map Yaml.map (goPairsI version policy m1) := by
  rw [replace_images_inject]
  split <;> simp_all

theorem ri_str (version policy : String) (org : Option String) (s : String) :
    replace_images version policy org (Yaml.str s) = some (Yaml.str s) := by
  rw [replace_images] <;> simp

theorem ri_int (version policy : String) (org : Option String) (n : Int) :
    replace_images version policy org (Yaml.int n) = some (Yaml.int n) := by
  rw [replace_images] <;> simp

theorem ri_bool (version policy : String) (org : Option String) (b : Bool) :
    replace_images version policy org (Yaml.bool b) = some (Yaml.bool b) := by
  rw [replace_images] <;> simp

theorem ri_null (version policy : String) (org : Option String) :
    replace_images version policy org Yaml.null = some Yaml.null := by
  rw [replace_images] <;> simp

theorem ri_seq (version policy : String) (org : Option String) (l : List Yaml) :
    replace_images version policy org (Yaml.seq l) =
      Option.map Yaml.seq (goItemsR version policy org l) := by
  rw [replace_images] <;> simp

theorem ri_map_none (version policy : String) (org : Option String)
    (m : List (String × Yaml))
    (h : mapStepR version policy org m = none) :
    replace_images version policy org (Yaml.map m) = none := by
  rw [replace_images]
  split <;> simp_all

theorem ri_map_some (version policy : String) (org : Option String)
    (m m1 : List (String × Yaml))
    (h : mapStepR version policy org m = some m1) :
    replace_images version policy org (Yaml.map m) =
      Option.map Yaml.map (goPairsR version policy org m1) := by
  rw [replace_images]
  split <;> simp_all

/-! ### A generic pointwise optional traversal of the children, and its
relation to the loops of the two scripts -/

/-- Apply `f` to every value of an association list, failing when `f`
fails anywhere. -/
def omapVals (f : Yaml → Option Yaml) :
    List (String × Yaml) → Option (List (String × Yaml))
  | [] => some []
  | (k, v) :: rest =>
      match f v, omapVals f rest with
      | some v1, some rest1 => some ((k, v1) :: rest1)
      | _, _ => none

/-- Apply `f` to every element of a list, failing when `f` fails anywhere. -/
def omapList (f : Yaml → Option Yaml) : List Yaml → Option (List Yaml)
  | [] => some []
  | v :: rest =>
      match f v, omapList f rest with
      | some v1, some rest1 => some (v1 :: rest1)
      | _, _ => none

theorem goPairsI_eq (version policy : String) (l : List (String × Yaml)) :
    goPairsI version policy l = omapVals (replace_images_inject version policy) l := by
  induction l with
  | nil => rw [goPairsI]; rfl
  | cons kv rest ih =>
      obtain ⟨k, v⟩ := kv
      rw [goPairsI, ih]
      rfl

theorem goItemsI_eq (version policy : String) (l : List Yaml) :
    goItemsI version policy l = omapList (replace_images_inject version policy) l := by
  induction l with
  | nil => rw [goItemsI]; rfl
  | cons v rest ih =>
      rw [goItemsI, ih]
      rfl

theorem goPairsR_eq (version policy : String) (org : Option String)
    (l : List (String × Yaml)) :
    goPairsR version policy org l = omapVals (replace_images version policy org) l := by
  induction l with
  | nil => rw [goPairsR]; rfl
  | cons kv rest ih =>
      obtain ⟨k, v⟩ := kv
      rw [goPairsR, ih]
      rfl

theorem goItemsR_eq (version policy : String) (org : Option String)
    (l : List Yaml) :
    goItemsR version policy org l = omapList (replace_images version policy org) l := by
  induction l with
  | nil => rw [goItemsR]; rfl
  | cons v rest ih =>
      rw [goItemsR, ih]
      rfl

/-! ### Properties of the generic traversal -/

theorem omapVals_getKey (f : Yaml → Option Yaml) (l l' : List (String × Yaml))
    (h : omapVals f l = some l') (k : String) (v : Yaml)
    (hk : getKey l k = some v) :
    ∃ v', f v = some v' ∧ getKey l' k = some v' := by
  induction l generalizing l' with
  | nil => simp [getKey] at hk
  | cons kv rest ih =>
      obtain ⟨a, b⟩ := kv
      unfold omapVals at h
      cases hb : f b with
      | none => rw [hb] at h; simp at h
      | some b1 =>
          rw [hb] at h
          cases hr : omapVals f rest with
          | none => rw [hr] at h; simp at h
          | some rest1 =>
              rw [hr] at h
              simp only [Option.some.injEq] at h
              subst h
              by_cases ha : a = k
              · subst ha
                simp [getKey] at hk
                subst hk
                exact ⟨b1, hb, by simp [getKey]⟩
              · simp [getKey, ha] at hk
                obtain ⟨v', hv1, hv2⟩ := ih rest1 hr hk
                exact ⟨v', hv1, by simp [getKey, ha, hv2]⟩

theorem omapVals_getKey_none (f : Yaml → Option Yaml) (l l' : List (String × Yaml))
    (h : omapVals f l = some l') (k : String)
    (hk : getKey l k = none) : getKey l' k = none := by
  induction l generalizing l' with
  | nil =>
      unfold omapVals at h
      simp only [Option.some.injEq] at h
      subst h
      exact hk
  | cons kv rest ih =>
      obtain ⟨a, b⟩ := kv
      unfold omapVals at h
      cases hb : f b with
      | none => rw [hb] at h; simp at h
      | some b1 =>
          rw [hb] at h
          cases hr : omapVals f rest with
          | none => rw [hr] at h; simp at h
          | some rest1 =>
              rw [hr] at h
              simp only [Option.some.injEq] at h
              subst h
              by_cases ha : a = k
              · simp [getKey, ha] at hk
              · simp [getKey, ha] at hk ⊢
                exact ih rest1 hr hk

theorem omapVals_fix (f : Yaml → Option Yaml) (l : List (String × Yaml))
    (h : ∀ kv ∈ l, f kv.2 = some kv.2) : omapVals f l = some l := by
  induction l with
  | nil => rfl
  | cons kv rest ih =>
      obtain ⟨a, b⟩ := kv
      have hb : f b = some b := h (a, b) (by simp)
      have hr : omapVals f rest = some rest := ih (fun kv hkv => h kv (by simp [hkv]))
      unfold omapVals
      rw [hb, hr]

theorem omapVals_mem (f : Yaml → Option Yaml) (l l' : List (String × Yaml))
    (h : omapVals f l = some l') (kv : String × Yaml) (hm : kv ∈ l') :
    ∃ v, (kv.1, v) ∈ l ∧ f v = some kv.2 := by
  induction l generalizing l' with
  | nil =>
      unfold omapVals at h
      simp only [Option.some.injEq] at h
      subst h
      simp at hm
  | cons hd rest ih =>
      obtain ⟨a, b⟩ := hd
      unfold omapVals at h
      cases hb : f b with
      | none => rw [hb] at h; simp at h
      | some b1 =>
          rw [hb] at h
          cases hr : omapVals f rest with
          | none => rw [hr] at h; simp at h
          | some rest1 =>
              rw [hr] at h
              simp only [Option.some.injEq] at h
              subst h
              rcases List.mem_cons.mp hm with hm | hm
              · subst hm
                exact ⟨b, by simp, hb⟩
              · obtain ⟨v, hv1, hv2⟩ := ih rest1 hr hm
                exact ⟨v, by simp [hv1], hv2⟩

theorem omapVals_isSome (f : Yaml → Option Yaml) (l : List (String × Yaml))
    (h : ∀ kv ∈ l, (f kv.2).isSome) : (omapVals f l).isSome := by
  induction l with
  | nil => simp [omapVals]
  | cons kv rest ih =>
      obtain ⟨a, b⟩ := kv
      have hb := h (a, b) (by simp)
      have hr := ih (fun kv hkv => h kv (by simp [hkv]))
      obtain ⟨b1, hb1⟩ := Option.isSome_iff_exists.mp hb
      obtain ⟨rest1, hr1⟩ := Option.isSome_iff_exists.mp hr
      unfold omapVals
      rw [hb1, hr1]
      rfl

theorem omapList_fix (f : Yaml → Option Yaml) (l : List Yaml)
    (h : ∀ v ∈ l, f v = some v) : omapList f l = some l := by
  induction l with
  | nil => rfl
  | cons v rest ih =>
      have hv : f v = some v := h v (by simp)
      have hr : omapList f rest = some rest := ih (fun w hw => h w (by simp [hw]))
      unfold omapList
      rw [hv, hr]

theorem omapList_mem (f : Yaml → Option Yaml) (l l' : List Yaml)
    (h : omapList f l = some l') (y : Yaml) (hm : y ∈ l') :
    ∃ v, v ∈ l ∧ f v = some y := by
  induction l generalizing l' with
  | nil =>
      unfold omapList at h
      simp only [Option.some.injEq] at h
      subst h
      simp at hm
  | cons v rest ih =>
      unfold omapList at h
      cases hv : f v with
      | none => rw [hv] at h; simp at h
      | some v1 =>
          rw [hv] at h
          cases hr : omapList f rest with
          | none => rw [hr] at h; simp at h
          | some rest1 =>
              rw [hr] at h
              simp only [Option.some.injEq] at h
              subst h
              rcases List.mem_cons.mp hm with hm | hm
              · subst hm
                exact ⟨v, by simp, hv⟩
              · obtain ⟨w, hw1, hw2⟩ := ih rest1 hr hm
                exact ⟨w, by simp [hw1], hw2⟩

theorem omapList_isSome (f : Yaml → Option Yaml) (l : List Yaml)
    (h : ∀ v ∈ l, (f v).isSome) : (omapList f l).isSome := by
  induction l with
  | nil => simp [omapList]
  | cons v rest ih =>
      have hv := h v (by simp)
      have hr := ih (fun w hw => h w (by simp [hw]))
      obtain ⟨v1, hv1⟩ := Option.isSome_iff_exists.mp hv
      obtain ⟨rest1, hr1⟩ := Option.isSome_iff_exists.mp hr
      unfold omapList
      rw [hv1, hr1]
      rfl

/-! ### String-level lemmas -/

theorem str_ext {s t : String} (h : s.data = t.data) : s = t :=
  congrArg String.mk h

theorem str_length (t : String) : t.length = t.data.length := rfl

theorem pyEndswith_iff (s t : String) : pyEndswith s t = true ↔ t.data <:+ s.data := by
  simp [pyEndswith]

theorem pyStartswith_iff (s p : String) : pyStartswith s p = true ↔ p.data <+: s.data := by
  simp [pyStartswith]

theorem pyEndswith_append (s t : String) : pyEndswith (s ++ t) t = true := by
  rw [pyEndswith_iff, String.data_append]
  exact List.suffix_append _ _

theorem pySliceToNeg_append (s t : String) : pySliceToNeg (s ++ t) t.length = s := by
  apply str_ext
  simp only [pySliceToNeg, String.data_append, List.length_append, str_length]
  have : s.data.length + t.data.length - t.data.length = s.data.length := by omega
  rw [this, List.take_left]

theorem pyStartswith_append (s t p : String) (h : pyStartswith s p = true) :
    pyStartswith (s ++ t) p = true := by
  rw [pyStartswith_iff] at h ⊢
  rw [String.data_append]
  exact h.trans (List.prefix_append _ _)

theorem startswith_decomp {s p : String} (h : pyStartswith s p = true) :
    ∃ r : List Char, s.data = p.data ++ r := by
  rw [pyStartswith_iff] at h
  obtain ⟨r, hr⟩ := h
  exact ⟨r, hr.symm⟩

theorem pyDropN_data (s : String) (n : Nat) : (pyDropN s n).data = s.data.drop n := rfl

theorem pyDropN_append (s t p : String) (h : pyStartswith s p = true) :
    pyDropN (s ++ t) p.length = pyDropN s p.length ++ t := by
  obtain ⟨r, hr⟩ := startswith_decomp h
  apply str_ext
  simp only [pyDropN_data, String.data_append, str_length, hr, List.append_assoc]
  rw [List.drop_left, List.drop_left]

/-- Splitting a suffix of an appended list: either the suffix lies wholly in
the right part, or it spills over with a nonempty suffix of the left part. -/
theorem suffix_split {α : Type} {t p r : List α} (h : t <:+ p ++ r) :
    t <:+ r ∨ ∃ m, m ≠ [] ∧ m <:+ p ∧ t = m ++ r := by
  induction p with
  | nil =>
      left
      simpa using h
  | cons a p' ih =>
      rw [List.cons_append] at h
      rcases List.suffix_cons_iff.mp h with h | h
      · right
        exact ⟨a :: p', by simp, List.suffix_refl _, by simpa using h⟩
      · rcases ih h with h' | ⟨m, hm1, hm2, hm3⟩
        · left
          exact h'
        · right
          exact ⟨m, hm1, hm2.trans (List.suffix_cons _ _), hm3⟩

theorem latest_data : latestSfx.data = ':' :: "latest".data := rfl

theorem colon_version_data (v : String) : (":" ++ v).data = ':' :: v.data := by
  rw [String.data_append]
  rfl

/-- If the left part of an appended string contains no colon, a trailing
`:latest` lies wholly in the right part. -/
theorem latest_suffix_shift {p r : List Char} (hp : ':' ∉ p)
    (h : latestSfx.data <:+ p ++ r) : latestSfx.data <:+ r := by
  rcases suffix_split h with h | ⟨m, hm1, hm2, hm3⟩
  · exact h
  · exfalso
    cases m with
    | nil => exact hm1 rfl
    | cons c m' =>
        have hc : c = ':' := by
          have h2 := congrArg List.head? hm3
          rw [latest_data] at h2
          simpa using h2.symm
        exact hp (hm2.subset (by simp [hc]))

/-- If `":" ++ v` does not end with `:latest` then neither does `X ++ ":" ++ v`
for any `X`: the colon in front of the version blocks any overlap. -/
theorem endswith_tag_false (v : String)
    (hv : pyEndswith (":" ++ v) latestSfx = false) (X : String) :
    pyEndswith (X ++ ":" ++ v) latestSfx = false := by
  by_contra hcon
  rw [Bool.not_eq_false, pyEndswith_iff] at hcon
  rw [String.append_assoc, String.data_append] at hcon
  rcases suffix_split hcon with h | ⟨m, hm1, hm2, hm3⟩
  · rw [← pyEndswith_iff] at h
    rw [h] at hv
    simp at hv
  · have hsuf : (":" ++ v).data <:+ latestSfx.data := ⟨m, hm3.symm⟩
    rw [latest_data] at hsuf
    rw [colon_version_data] at hsuf hm3
    rcases List.suffix_cons_iff.mp hsuf with h | h
    · have : latestSfx.data <:+ (":" ++ v).data := by
        rw [latest_data, colon_version_data, h]
      rw [← pyEndswith_iff] at this
      rw [this] at hv
      simp at hv
    · have : (':' : Char) ∈ "latest".data := h.subset (by simp)
      revert this
      decide

theorem no_colon_ghcr : (':' : Char) ∉ ghcrPfx.data := by decide

/-- A recognized drogue image still ends with `:latest` after the fixed
prefix is cut off. -/
theorem endswith_after_drop {s : String} (h1 : pyStartswith s ghcrPfx = true)
    (h2 : pyEndswith s latestSfx = true) :
    pyEndswith (pyDropN s ghcrPfx.length) latestSfx = true := by
  obtain ⟨r, hr⟩ := startswith_decomp h1
  rw [pyEndswith_iff] at h2 ⊢
  rw [pyDropN_data, str_length, hr, List.drop_left]
  rw [hr] at h2
  exact latest_suffix_shift no_colon_ghcr h2

/-! ### Characterizations of the two rewrite rules -/

/-- The earliest rule is the identity off the `:latest` pattern. -/
theorem translate_inject_id {version s : String}
    (h : pyEndswith s ":latest" = false) :
    translate_image_inject version s = s := by
  unfold translate_image_inject
  simp [h]

/-- The earliest rule on a matching string substitutes the version. -/
theorem translate_inject_append (version X : String) :
    translate_image_inject version (X ++ ":latest") = X ++ ":" ++ version := by
  unfold translate_image_inject
  rw [pyEndswith_append]
  simp only [Bool.not_true, Bool.false_eq_true, if_false]
  rw [pyEndswith_append, if_pos rfl, pySliceToNeg_append]

/-- With the organization inactive the later rule is just the tag
substitution. -/
theorem translate_inactive {org : Option String} (version s : String)
    (h : orgActive org = false) :
    translate_image org version s = tagSubst version s := by
  unfold translate_image tagSubst
  simp [h]

/-- Without the fixed registry prefix the later rule is just the tag
substitution. -/
theorem translate_noPfx (org : Option String) (version s : String)
    (h : pyStartswith s ghcrPfx = false) :
    translate_image org version s = tagSubst version s := by
  unfold translate_image tagSubst
  simp [h]

theorem orgActive_some {o : String} (ho : o ≠ "") : orgActive (some o) = true := by
  simp [orgActive, ho]

theorem orgActive_empty : orgActive (some "") = false := by
  simp [orgActive]

/-- With an active organization and the fixed prefix present, the later rule
swaps the prefix first and then substitutes the tag. -/
theorem translate_active (o version s : String) (ho : o ≠ "")
    (hs : pyStartswith s ghcrPfx = true) :
    translate_image (some o) version s =
      tagSubst version (o ++ pyDropN s ghcrPfx.length) := by
  unfold translate_image tagSubst
  rw [orgActive_some ho]
  simp [hs]

/-- The tag substitution on a matching string. -/
theorem tagSubst_append (version X : String) :
    tagSubst version (X ++ ":latest") = X ++ ":" ++ version := by
  unfold tagSubst
  have : (":latest" : String) = latestSfx := rfl
  rw [this, pyEndswith_append, if_pos rfl]
  rw [pySliceToNeg_append]

/-- The tag substitution off the pattern. -/
theorem tagSubst_id {version s : String} (h : pyEndswith s latestSfx = false) :
    tagSubst version s = s := by
  unfold tagSubst
  simp [h]

/-- The prefix of a recognized image survives the tag substitution: the cut
point of `:latest` lies strictly to the right of the fixed prefix. -/
theorem startswith_tagSubst {version s : String}
    (hs : pyStartswith s ghcrPfx = true) :
    pyStartswith (tagSubst version s) ghcrPfx = true := by
  unfold tagSubst
  by_cases he : pyEndswith s latestSfx = true
  · rw [if_pos he]
    obtain ⟨r, hr⟩ := startswith_decomp hs
    rw [pyEndswith_iff, hr] at he
    have hro := latest_suffix_shift no_colon_ghcr he
    obtain ⟨r', hr'⟩ := hro
    apply pyStartswith_append
    apply pyStartswith_append
    rw [pyStartswith_iff]
    simp only [pySliceToNeg, hr, str_length]
    refine ⟨r', ?_⟩
    have hlen : (ghcrPfx.data ++ r).length - latestSfx.data.length
        = ghcrPfx.data.length + r'.length := by
      have h7 : r.length = r'.length + latestSfx.data.length := by
        rw [← hr']
        simp
      simp [h7]
      omega
    rw [hlen, List.take_append_eq_append_take,
      List.take_of_length_le (by omega), ← hr']
    have : ghcrPfx.data.length + r'.length - ghcrPfx.data.length = r'.length := by
      omega
    rw [this, List.take_left]
  · rw [if_neg he]
    exact hs

/-! ## The claims -/

/-- Claim C1, counterexample: an image string that does not end in `:latest`
is nevertheless changed by the later variant's `translate_image` when an
organization is configured and the string starts with the fixed prefix
(the claim asserted the rule is the identity for every configured
organization). -/
theorem claim1_counterexample :
    pyEndswith "ghcr.io/drogue-iot/app:1.0" ":latest" = false ∧
    translate_image (some "quay.io/org") "1.2.3" "ghcr.io/drogue-iot/app:1.0"
      ≠ "ghcr.io/drogue-iot/app:1.0" := by
  constructor
  · decide
  · decide

/-- Claim C1, amended: for every image string that does not end with
`:latest`, `translate_image` of the earliest variant returns it unchanged,
and `translate_image` of the later variant returns it unchanged whenever the
organization is inactive (absent or empty) or the string does not start with
the fixed prefix `ghcr.io/drogue-iot`; when an active organization meets the
prefix the string can change (see the counterexample). -/
theorem claim1_amended (version s : String) (org : Option String)
    (h : pyEndswith s ":latest" = false) :
    translate_image_inject version s = s ∧
    (orgActive org = false → translate_image org version s = s) ∧
    (pyStartswith s ghcrPfx = false → translate_image org version s = s) := by
  have h' : pyEndswith s latestSfx = false := h
  refine ⟨translate_inject_id h, ?_, ?_⟩
  · intro ho
    rw [translate_inactive version s ho]
    exact tagSubst_id h'
  · intro hs
    rw [translate_noPfx org version s hs]
    exact tagSubst_id h'

theorem claim1_witness :
    pyEndswith "quay.io/app:1.0" ":latest" = false ∧
    (translate_image_inject "9.9" "quay.io/app:1.0" = "quay.io/app:1.0" ∧
     (orgActive none = false →
        translate_image none "9.9" "quay.io/app:1.0" = "quay.io/app:1.0") ∧
     (pyStartswith "quay.io/app:1.0" ghcrPfx = false →
        translate_image none "9.9" "quay.io/app:1.0" = "quay.io/app:1.0")) :=
  ⟨by decide, claim1_amended "9.9" "quay.io/app:1.0" none (by decide)⟩

/-- Claim C3: on a string `X ++ ":latest"` both rewrite rules produce
exactly `X' ++ ":" ++ version`, where `X'` is `X` with the fixed prefix
replaced by the organization when one is active (and the prefix present),
and `X' = X` when no organization is configured (or in the earliest
variant). -/
theorem claim3_exact (version X o : String) (ho : o ≠ "") :
    translate_image_inject version (X ++ ":latest") = X ++ ":" ++ version ∧
    translate_image none version (X ++ ":latest") = X ++ ":" ++ version ∧
    (pyStartswith X ghcrPfx = true →
      translate_image (some o) version (X ++ ":latest") =
        (o ++ pyDropN X ghcrPfx.length) ++ ":" ++ version) := by
  refine ⟨translate_inject_append version X, ?_, ?_⟩
  · rw [@translate_inactive none version (X ++ ":latest") rfl]
    exact tagSubst_append version X
  · intro hX
    rw [translate_active o version (X ++ ":latest") ho
      (pyStartswith_append X ":latest" ghcrPfx hX)]
    rw [pyDropN_append X ":latest" ghcrPfx hX, ← String.append_assoc]
    exact tagSubst_append version (o ++ pyDropN X ghcrPfx.length)

theorem claim3_witness :
    ("quay.io/my" : String) ≠ "" ∧
    (translate_image_inject "1.2.3" ("ghcr.io/drogue-iot/app" ++ ":latest")
        = "ghcr.io/drogue-iot/app" ++ ":" ++ "1.2.3" ∧
     translate_image none "1.2.3" ("ghcr.io/drogue-iot/app" ++ ":latest")
        = "ghcr.io/drogue-iot/app" ++ ":" ++ "1.2.3" ∧
     (pyStartswith "ghcr.io/drogue-iot/app" ghcrPfx = true →
        translate_image (some "quay.io/my") "1.2.3"
            ("ghcr.io/drogue-iot/app" ++ ":latest")
          = ("quay.io/my" ++ pyDropN "ghcr.io/drogue-iot/app" ghcrPfx.length)
              ++ ":" ++ "1.2.3")) :=
  ⟨by decide, claim3_exact "1.2.3" "ghcr.io/drogue-iot/app" "quay.io/my" (by decide)⟩

/-- Claim C4: in the later variant, on a string with the fixed prefix, an
active organization replaces the prefix before the tag substitution, while
with no organization configured the rule is the bare tag substitution and
the prefix portion is untouched (the result still starts with the fixed
prefix). -/
theorem claim4_org (version s o : String) (ho : o ≠ "")
    (hs : pyStartswith s ghcrPfx = true) :
    translate_image (some o) version s =
      tagSubst version (o ++ pyDropN s ghcrPfx.length) ∧
    translate_image none version s = tagSubst version s ∧
    pyStartswith (translate_image none version s) ghcrPfx = true := by
  refine ⟨translate_active o version s ho hs, @translate_inactive none version s rfl, ?_⟩
  rw [@translate_inactive none version s rfl]
  exact startswith_tagSubst hs

theorem claim4_witness :
    ("quay.io/my" : String) ≠ "" ∧
    pyStartswith "ghcr.io/drogue-iot/app:latest" ghcrPfx = true ∧
    (translate_image (some "quay.io/my") "1.2.3" "ghcr.io/drogue-iot/app:latest" =
      tagSubst "1.2.3"
        ("quay.io/my" ++ pyDropN "ghcr.io/drogue-iot/app:latest" ghcrPfx.length) ∧
     translate_image none "1.2.3" "ghcr.io/drogue-iot/app:latest" =
      tagSubst "1.2.3" "ghcr.io/drogue-iot/app:latest" ∧
     pyStartswith (translate_image none "1.2.3" "ghcr.io/drogue-iot/app:latest")
        ghcrPfx = true) :=
  ⟨by decide, by decide,
    claim4_org "1.2.3" "ghcr.io/drogue-iot/app:latest" "quay.io/my"
      (by decide) (by decide)⟩

/-! ### Inversion of the traversal on mappings -/

theorem replace_map_inv (version policy : String) (org : Option String)
    (m : List (String × Yaml)) (y : Yaml)
    (hp : replace_images version policy org (Yaml.map m) = some y) :
    ∃ m1 m', mapStepR version policy org m = some m1 ∧
      omapVals (replace_images version policy org) m1 = some m' ∧
      y = Yaml.map m' := by
  cases hstep : mapStepR version policy org m with
  | none =>
      rw [ri_map_none version policy org m hstep] at hp
      exact absurd hp (by simp)
  | some m1 =>
      rw [ri_map_some version policy org m m1 hstep, goPairsR_eq] at hp
      cases hgo : omapVals (replace_images version policy org) m1 with
      | none => rw [hgo] at hp; exact absurd hp (by simp)
      | some m' =>
          rw [hgo] at hp
          simp at hp
          exact ⟨m1, m', rfl, hgo, hp.symm⟩

theorem inject_map_inv (version policy : String)
    (m : List (String × Yaml)) (y : Yaml)
    (hp : replace_images_inject version policy (Yaml.map m) = some y) :
    ∃ m1 m', mapStepI version policy m = some m1 ∧
      omapVals (replace_images_inject version policy) m1 = some m' ∧
      y = Yaml.map m' := by
  cases hstep : mapStepI version policy m with
  | none =>
      rw [rii_map_none version policy m hstep] at hp
      exact absurd hp (by simp)
  | some m1 =>
      rw [rii_map_some version policy m m1 hstep, goPairsI_eq] at hp
      cases hgo : omapVals (replace_images_inject version policy) m1 with
      | none => rw [hgo] at hp; exact absurd hp (by simp)
      | some m' =>
          rw [hgo] at hp
          simp at hp
          exact ⟨m1, m', rfl, hgo, hp.symm⟩

/-! ### Characterizations of the map-level step -/

theorem mapStepR_no_image (version policy : String) (org : Option String)
    (m : List (String × Yaml)) (h : getKey m "image" = none) :
    mapStepR version policy org m = some m := by
  unfold mapStepR
  rw [h]

theorem mapStepR_no_match (version policy : String) (org : Option String)
    (m : List (String × Yaml)) (s : String)
    (h : getKey m "image" = some (Yaml.str s)) (hd : is_drogue_image s = false) :
    mapStepR version policy org m = some m := by
  unfold mapStepR
  rw [h]
  show (if is_drogue_image s then _ else _) = _
  rw [hd]
  rfl

theorem mapStepR_match (version policy : String) (org : Option String)
    (m : List (String × Yaml)) (s : String)
    (h : getKey m "image" = some (Yaml.str s)) (hd : is_drogue_image s = true) :
    mapStepR version policy org m =
      some (setKey (setKey m "image" (Yaml.str (translate_image org version s)))
        "imagePullPolicy" (Yaml.str policy)) := by
  unfold mapStepR
  rw [h]
  show (if is_drogue_image s then _ else _) = _
  rw [hd]
  rfl

theorem mapStepR_nonstr (version policy : String) (org : Option String)
    (m : List (String × Yaml)) (w : Yaml)
    (h : getKey m "image" = some w) (hw : asStr w = none) :
    mapStepR version policy org m = none := by
  unfold mapStepR
  rw [h]
  cases w <;> first | rfl | simp [asStr] at hw

theorem mapStepI_image (version policy : String)
    (m : List (String × Yaml)) (s : String)
    (h : getKey m "image" = some (Yaml.str s)) :
    mapStepI version policy m =
      some (setKey (setKey m "image" (Yaml.str (translate_image_inject version s)))
        "imagePullPolicy" (Yaml.str policy)) := by
  unfold mapStepI
  rw [h]
  rfl

theorem mapStepI_no_image (version policy : String)
    (m : List (String × Yaml)) (h : getKey m "image" = none) :
    mapStepI version policy m = some m := by
  unfold mapStepI
  rw [h]

theorem mapStepI_nonstr (version policy : String)
    (m : List (String × Yaml)) (w : Yaml)
    (h : getKey m "image" = some w) (hw : asStr w = none) :
    mapStepI version policy m = none := by
  unfold mapStepI
  rw [h]
  cases w <;> first | rfl | simp [asStr] at hw

/-- The value sitting under a `some`-returning `asStr` is that string. -/
theorem asStr_some {w : Yaml} {s : String} (h : asStr w = some s) :
    w = Yaml.str s := by
  cases w <;> simp [asStr] at h
  rw [h]

/-- Keys other than `image` and `imagePullPolicy` are untouched by the
map-level step of the later variant. -/
theorem mapStepR_other (version policy : String) (org : Option String)
    (m m1 : List (String × Yaml)) (h : mapStepR version policy org m = some m1)
    (k : String) (h1 : k ≠ "image") (h2 : k ≠ "imagePullPolicy") :
    getKey m1 k = getKey m k := by
  unfold mapStepR at h
  split at h
  · simp only [Option.some.injEq] at h
    subst h
    rfl
  · split at h
    · exact absurd h (by simp)
    · split at h
      · simp only [Option.some.injEq] at h
        subst h
        rw [getKey_setKey_of_ne _ _ _ _ h2, getKey_setKey_of_ne _ _ _ _ h1]
      · simp only [Option.some.injEq] at h
        subst h
        rfl

/-- Keys other than `image` and `imagePullPolicy` are untouched by the
map-level step of the earliest variant. -/
theorem mapStepI_other (version policy : String)
    (m m1 : List (String × Yaml)) (h : mapStepI version policy m = some m1)
    (k : String) (h1 : k ≠ "image") (h2 : k ≠ "imagePullPolicy") :
    getKey m1 k = getKey m k := by
  unfold mapStepI at h
  split at h
  · simp only [Option.some.injEq] at h
    subst h
    rfl
  · split at h
    · exact absurd h (by simp)
    · simp only [Option.some.injEq] at h
      subst h
      rw [getKey_setKey_of_ne _ _ _ _ h2, getKey_setKey_of_ne _ _ _ _ h1]

/-- Claim C2: frame property of the traversal on every mapping node, both
variants.  A non-matching `image` value (no `:latest` suffix, and in the
later variant no recognized prefix) survives unchanged, and every field
other than `image` and `imagePullPolicy` keeps its entry, whose value is
exactly the recursive processing of the old value. -/
theorem claim2_frame (version policy : String) (org : Option String)
    (m m' n n' : List (String × Yaml))
    (hrep : replace_images version policy org (Yaml.map m) = some (Yaml.map m'))
    (hinj : replace_images_inject version policy (Yaml.map n) = some (Yaml.map n')) :
    (∀ s, getKey m "image" = some (Yaml.str s) → is_drogue_image s = false →
        getKey m' "image" = some (Yaml.str s)) ∧
    (∀ k w, k ≠ "image" → k ≠ "imagePullPolicy" → getKey m k = some w →
        ∃ w', replace_images version policy org w = some w' ∧
          getKey m' k = some w') ∧
    (∀ s, getKey n "image" = some (Yaml.str s) → pyEndswith s ":latest" = false →
        getKey n' "image" = some (Yaml.str s)) ∧
    (∀ k w, k ≠ "image" → k ≠ "imagePullPolicy" → getKey n k = some w →
        ∃ w', replace_images_inject version policy w = some w' ∧
          getKey n' k = some w') := by
  obtain ⟨m1, m'', hstep, hgo, hy⟩ := replace_map_inv version policy org m _ hrep
  injection hy with hy
  subst hy
  obtain ⟨n1, n'', istep, igo, iy⟩ := inject_map_inv version policy n _ hinj
  injection iy with iy
  subst iy
  refine ⟨?_, ?_, ?_, ?_⟩
  · intro s him hd
    rw [mapStepR_no_match version policy org m s him hd] at hstep
    simp only [Option.some.injEq] at hstep
    subst hstep
    obtain ⟨v', hv1, hv2⟩ := omapVals_getKey _ _ _ hgo _ _ him
    rw [ri_str] at hv1
    simp only [Option.some.injEq] at hv1
    rw [hv1]
    exact hv2
  · intro k w h1 h2 hk
    have hk1 : getKey m1 k = some w := by
      rw [mapStepR_other version policy org m m1 hstep k h1 h2]
      exact hk
    exact omapVals_getKey _ _ _ hgo _ _ hk1
  · intro s him hd
    rw [mapStepI_image version policy n s him, translate_inject_id hd] at istep
    simp only [Option.some.injEq] at istep
    subst istep
    have hk1 : getKey (setKey (setKey n "image" (Yaml.str s)) "imagePullPolicy"
        (Yaml.str policy)) "image" = some (Yaml.str s) := by
      rw [getKey_setKey_of_ne _ _ _ _ (by decide), getKey_setKey_same]
    obtain ⟨v', hv1, hv2⟩ := omapVals_getKey _ _ _ igo _ _ hk1
    rw [rii_str] at hv1
    simp only [Option.some.injEq] at hv1
    rw [hv1]
    exact hv2
  · intro k w h1 h2 hk
    have hk1 : getKey n1 k = some w := by
      rw [mapStepI_other version policy n n1 istep k h1 h2]
      exact hk
    exact omapVals_getKey _ _ _ igo _ _ hk1

/-- Claim C5: whenever processing changed a mapping's `image` value, the
same mapping's `imagePullPolicy` equals the configured policy afterwards,
in both variants. -/
theorem claim5_policy (version policy : String) (org : Option String)
    (m m' n n' : List (String × Yaml))
    (hrep : replace_images version policy org (Yaml.map m) = some (Yaml.map m'))
    (hchgR : getKey m' "image" ≠ getKey m "image")
    (hinj : replace_images_inject version policy (Yaml.map n) = some (Yaml.map n'))
    (hchgI : getKey n' "image" ≠ getKey n "image") :
    getKey m' "imagePullPolicy" = some (Yaml.str policy) ∧
    getKey n' "imagePullPolicy" = some (Yaml.str policy) := by
  obtain ⟨m1, m'', hstep, hgo, hy⟩ := replace_map_inv version policy org m _ hrep
  injection hy with hy
  subst hy
  obtain ⟨n1, n'', istep, igo, iy⟩ := inject_map_inv version policy n _ hinj
  injection iy with iy
  subst iy
  constructor
  · cases him : getKey m "image" with
    | none =>
        rw [mapStepR_no_image version policy org m him] at hstep
        simp only [Option.some.injEq] at hstep
        subst hstep
        have h0 := omapVals_getKey_none _ _ _ hgo _ him
        exact absurd (h0.trans him.symm) hchgR
    | some w =>
        cases hs : asStr w with
        | none =>
            rw [mapStepR_nonstr version policy org m w him hs] at hstep
            exact absurd hstep (by simp)
        | some s =>
            have hw := asStr_some hs
            subst hw
            by_cases hd : is_drogue_image s = true
            · rw [mapStepR_match version policy org m s him hd] at hstep
              simp only [Option.some.injEq] at hstep
              subst hstep
              have hk1 := getKey_setKey_same
                (setKey m "image" (Yaml.str (translate_image org version s)))
                "imagePullPolicy" (Yaml.str policy)
              obtain ⟨v', hv1, hv2⟩ := omapVals_getKey _ _ _ hgo _ _ hk1
              rw [ri_str] at hv1
              simp only [Option.some.injEq] at hv1
              rw [hv1]
              exact hv2
            · have hd' : is_drogue_image s = false := by simpa using hd
              rw [mapStepR_no_match version policy org m s him hd'] at hstep
              simp only [Option.some.injEq] at hstep
              subst hstep
              obtain ⟨v', hv1, hv2⟩ := omapVals_getKey _ _ _ hgo _ _ him
              rw [ri_str] at hv1
              simp only [Option.some.injEq] at hv1
              rw [← hv1] at hv2
              exact absurd (hv2.trans him.symm) hchgR
  · cases him : getKey n "image" with
    | none =>
        rw [mapStepI_no_image version policy n him] at istep
        simp only [Option.some.injEq] at istep
        subst istep
        have h0 := omapVals_getKey_none _ _ _ igo _ him
        exact absurd (h0.trans him.symm) hchgI
    | some w =>
        cases hs : asStr w with
        | none =>
            rw [mapStepI_nonstr version policy n w him hs] at istep
            exact absurd istep (by simp)
        | some s =>
            have hw := asStr_some hs
            subst hw
            rw [mapStepI_image version policy n s him] at istep
            simp only [Option.some.injEq] at istep
            subst istep
            have hk1 := getKey_setKey_same
              (setKey n "image" (Yaml.str (translate_image_inject version s)))
              "imagePullPolicy" (Yaml.str policy)
            obtain ⟨v', hv1, hv2⟩ := omapVals_getKey _ _ _ igo _ _ hk1
            rw [rii_str] at hv1
            simp only [Option.some.injEq] at hv1
            rw [hv1]
            exact hv2

/-- Claim C6: in the earliest variant the pull policy is overwritten with the
configured policy whenever the key `image` is present, even for an image
value that does not match the `:latest` pattern and is left unchanged. -/
theorem claim6_unconditional (version policy : String)
    (n n' : List (String × Yaml))
    (him : (getKey n "image").isSome)
    (hinj : replace_images_inject version policy (Yaml.map n) = some (Yaml.map n')) :
    getKey n' "imagePullPolicy" = some (Yaml.str policy) ∧
    (∀ s, getKey n "image" = some (Yaml.str s) → pyEndswith s ":latest" = false →
        getKey n' "image" = some (Yaml.str s)) := by
  obtain ⟨n1, n'', istep, igo, iy⟩ := inject_map_inv version policy n _ hinj
  injection iy with iy
  subst iy
  obtain ⟨w, hw⟩ := Option.isSome_iff_exists.mp him
  cases hs : asStr w with
  | none =>
      rw [mapStepI_nonstr version policy n w hw hs] at istep
      exact absurd istep (by simp)
  | some s =>
      have hws := asStr_some hs
      subst hws
      rw [mapStepI_image version policy n s hw] at istep
      simp only [Option.some.injEq] at istep
      subst istep
      constructor
      · have hk1 := getKey_setKey_same
          (setKey n "image" (Yaml.str (translate_image_inject version s)))
          "imagePullPolicy" (Yaml.str policy)
        obtain ⟨v', hv1, hv2⟩ := omapVals_getKey _ _ _ igo _ _ hk1
        rw [rii_str] at hv1
        simp only [Option.some.injEq] at hv1
        rw [hv1]
        exact hv2
      · intro s' him' hd
        rw [hw] at him'
        injection him' with h'
        injection h' with h''
        subst h''
        have hk1 : getKey (setKey (setKey n "image"
            (Yaml.str (translate_image_inject version s))) "imagePullPolicy"
            (Yaml.str policy)) "image"
            = some (Yaml.str (translate_image_inject version s)) := by
          rw [getKey_setKey_of_ne _ _ _ _ (by decide), getKey_setKey_same]
        obtain ⟨v', hv1, hv2⟩ := omapVals_getKey _ _ _ igo _ _ hk1
        rw [rii_str] at hv1
        simp only [Option.some.injEq] at hv1
        rw [← hv1, translate_inject_id hd] at hv2
        exact hv2

/-- Claim C7: in the later variant an image string without the fixed
registry prefix is not a recognized drogue image, so a mapping carrying it
keeps the image value unchanged and gains no `imagePullPolicy` entry,
whether or not the string ends in `:latest`. -/
theorem claim7_no_prefix (version policy s : String) (org : Option String)
    (m m' : List (String × Yaml))
    (hs : pyStartswith s ghcrPfx = false)
    (him : getKey m "image" = some (Yaml.str s))
    (hp : replace_images version policy org (Yaml.map m) = some (Yaml.map m')) :
    is_drogue_image s = false ∧
    getKey m' "image" = some (Yaml.str s) ∧
    (getKey m "imagePullPolicy" = none → getKey m' "imagePullPolicy" = none) := by
  have hd : is_drogue_image s = false := by
    unfold is_drogue_image
    rw [hs]
    rfl
  obtain ⟨m1, m'', hstep, hgo, hy⟩ := replace_map_inv version policy org m _ hp
  injection hy with hy
  subst hy
  rw [mapStepR_no_match version policy org m s him hd] at hstep
  simp only [Option.some.injEq] at hstep
  subst hstep
  refine ⟨hd, ?_, ?_⟩
  · obtain ⟨v', hv1, hv2⟩ := omapVals_getKey _ _ _ hgo _ _ him
    rw [ri_str] at hv1
    simp only [Option.some.injEq] at hv1
    rw [hv1]
    exact hv2
  · intro hpol
    exact omapVals_getKey_none _ _ _ hgo _ hpol

theorem claim2_witness :
    replace_images "1.2.3" "Pol" none
        (Yaml.map [("image", Yaml.str "quay.io/other:latest"),
          ("replicas", Yaml.int 2)])
      = some (Yaml.map [("image", Yaml.str "quay.io/other:latest"),
          ("replicas", Yaml.int 2)]) ∧
    replace_images_inject "1.2.3" "Pol"
        (Yaml.map [("image", Yaml.str "app:1.0"), ("replicas", Yaml.int 2)])
      = some (Yaml.map [("image", Yaml.str "app:1.0"), ("replicas", Yaml.int 2),
          ("imagePullPolicy", Yaml.str "Pol")]) ∧
    getKey [("image", Yaml.str "quay.io/other:latest"), ("replicas", Yaml.int 2)]
        "image" = some (Yaml.str "quay.io/other:latest") ∧
    getKey [("image", Yaml.str "app:1.0"), ("replicas", Yaml.int 2),
        ("imagePullPolicy", Yaml.str "Pol")] "image"
      = some (Yaml.str "app:1.0") := by
  have h1 : replace_images "1.2.3" "Pol" none
      (Yaml.map [("image", Yaml.str "quay.io/other:latest"), ("replicas", Yaml.int 2)])
      = some (Yaml.map [("image", Yaml.str "quay.io/other:latest"),
          ("replicas", Yaml.int 2)]) := by
    have hs : mapStepR "1.2.3" "Pol" none
        [("image", Yaml.str "quay.io/other:latest"), ("replicas", Yaml.int 2)]
        = some [("image", Yaml.str "quay.io/other:latest"), ("replicas", Yaml.int 2)] := rfl
    rw [ri_map_some _ _ _ _ _ hs, goPairsR_eq]
    simp [omapVals, ri_str, ri_int]
  have h2 : replace_images_inject "1.2.3" "Pol"
      (Yaml.map [("image", Yaml.str "app:1.0"), ("replicas", Yaml.int 2)])
      = some (Yaml.map [("image", Yaml.str "app:1.0"), ("replicas", Yaml.int 2),
          ("imagePullPolicy", Yaml.str "Pol")]) := by
    have hs : mapStepI "1.2.3" "Pol"
        [("image", Yaml.str "app:1.0"), ("replicas", Yaml.int 2)]
        = some [("image", Yaml.str "app:1.0"), ("replicas", Yaml.int 2),
          ("imagePullPolicy", Yaml.str "Pol")] := rfl
    rw [rii_map_some _ _ _ _ hs, goPairsI_eq]
    simp [omapVals, rii_str, rii_int]
  have hc := claim2_frame "1.2.3" "Pol" none _ _ _ _ h1 h2
  exact ⟨h1, h2, hc.1 "quay.io/other:latest" rfl (by decide),
    hc.2.2.1 "app:1.0" rfl (by decide)⟩

theorem claim5_witness :
    replace_images "2.0" "Never" (some "quay.io/x")
        (Yaml.map [("image", Yaml.str "ghcr.io/drogue-iot/svc:latest")])
      = some (Yaml.map [("image", Yaml.str "quay.io/x/svc:2.0"),
          ("imagePullPolicy", Yaml.str "Never")]) ∧
    getKey [("image", Yaml.str "quay.io/x/svc:2.0"),
        ("imagePullPolicy", Yaml.str "Never")] "image"
      ≠ getKey [("image", Yaml.str "ghcr.io/drogue-iot/svc:latest")] "image" ∧
    replace_images_inject "2.0" "Never"
        (Yaml.map [("image", Yaml.str "busybox:latest")])
      = some (Yaml.map [("image", Yaml.str "busybox:2.0"),
          ("imagePullPolicy", Yaml.str "Never")]) ∧
    getKey [("image", Yaml.str "busybox:2.0"),
        ("imagePullPolicy", Yaml.str "Never")] "image"
      ≠ getKey [("image", Yaml.str "busybox:latest")] "image" ∧
    getKey [("image", Yaml.str "quay.io/x/svc:2.0"),
        ("imagePullPolicy", Yaml.str "Never")] "imagePullPolicy"
      = some (Yaml.str "Never") ∧
    getKey [("image", Yaml.str "busybox:2.0"),
        ("imagePullPolicy", Yaml.str "Never")] "imagePullPolicy"
      = some (Yaml.str "Never") := by
  have h1 : replace_images "2.0" "Never" (some "quay.io/x")
      (Yaml.map [("image", Yaml.str "ghcr.io/drogue-iot/svc:latest")])
      = some (Yaml.map [("image", Yaml.str "quay.io/x/svc:2.0"),
          ("imagePullPolicy", Yaml.str "Never")]) := by
    have hs : mapStepR "2.0" "Never" (some "quay.io/x")
        [("image", Yaml.str "ghcr.io/drogue-iot/svc:latest")]
        = some [("image", Yaml.str "quay.io/x/svc:2.0"),
          ("imagePullPolicy", Yaml.str "Never")] := rfl
    rw [ri_map_some _ _ _ _ _ hs, goPairsR_eq]
    simp [omapVals, ri_str]
  have hchg1 : getKey [("image", Yaml.str "quay.io/x/svc:2.0"),
        ("imagePullPolicy", Yaml.str "Never")] "image"
      ≠ getKey [("image", Yaml.str "ghcr.io/drogue-iot/svc:latest")] "image" := by
    simp [getKey]
  have h2 : replace_images_inject "2.0" "Never"
      (Yaml.map [("image", Yaml.str "busybox:latest")])
      = some (Yaml.map [("image", Yaml.str "busybox:2.0"),
          ("imagePullPolicy", Yaml.str "Never")]) := by
    have hs : mapStepI "2.0" "Never" [("image", Yaml.str "busybox:latest")]
        = some [("image", Yaml.str "busybox:2.0"),
          ("imagePullPolicy", Yaml.str "Never")] := rfl
    rw [rii_map_some _ _ _ _ hs, goPairsI_eq]
    simp [omapVals, rii_str]
  have hchg2 : getKey [("image", Yaml.str "busybox:2.0"),
        ("imagePullPolicy", Yaml.str "Never")] "image"
      ≠ getKey [("image", Yaml.str "busybox:latest")] "image" := by
    simp [getKey]
  have hc := claim5_policy "2.0" "Never" (some "quay.io/x") _ _ _ _ h1 hchg1 h2 hchg2
  exact ⟨h1, hchg1, h2, hchg2, hc.1, hc.2⟩

theorem claim6_witness :
    (getKey [("image", Yaml.str "plain:1.0")] "image").isSome = true ∧
    replace_images_inject "3.0" "Always"
        (Yaml.map [("image", Yaml.str "plain:1.0")])
      = some (Yaml.map [("image", Yaml.str "plain:1.0"),
          ("imagePullPolicy", Yaml.str "Always")]) ∧
    getKey [("image", Yaml.str "plain:1.0"),
        ("imagePullPolicy", Yaml.str "Always")] "imagePullPolicy"
      = some (Yaml.str "Always") ∧
    getKey [("image", Yaml.str "plain:1.0"),
        ("imagePullPolicy", Yaml.str "Always")] "image"
      = some (Yaml.str "plain:1.0") := by
  have h2 : replace_images_inject "3.0" "Always"
      (Yaml.map [("image", Yaml.str "plain:1.0")])
      = some (Yaml.map [("image", Yaml.str "plain:1.0"),
          ("imagePullPolicy", Yaml.str "Always")]) := by
    have hs : mapStepI "3.0" "Always" [("image", Yaml.str "plain:1.0")]
        = some [("image", Yaml.str "plain:1.0"),
          ("imagePullPolicy", Yaml.str "Always")] := rfl
    rw [rii_map_some _ _ _ _ hs, goPairsI_eq]
    simp [omapVals, rii_str]
  have hc := claim6_unconditional "3.0" "Always" _ _ (by rfl) h2
  exact ⟨rfl, h2, hc.1, hc.2 "plain:1.0" rfl (by decide)⟩

theorem claim7_witness :
    pyStartswith "docker.io/app:latest" ghcrPfx = false ∧
    getKey [("image", Yaml.str "docker.io/app:latest")] "image"
      = some (Yaml.str "docker.io/app:latest") ∧
    replace_images "1.0" "P" none
        (Yaml.map [("image", Yaml.str "docker.io/app:latest")])
      = some (Yaml.map [("image", Yaml.str "docker.io/app:latest")]) ∧
    is_drogue_image "docker.io/app:latest" = false ∧
    (getKey [("image", Yaml.str "docker.io/app:latest")] "imagePullPolicy" = none →
      getKey [("image", Yaml.str "docker.io/app:latest")] "imagePullPolicy" = none) := by
  have hp : replace_images "1.0" "P" none
      (Yaml.map [("image", Yaml.str "docker.io/app:latest")])
      = some (Yaml.map [("image", Yaml.str "docker.io/app:latest")]) := by
    have hs : mapStepR "1.0" "P" none [("image", Yaml.str "docker.io/app:latest")]
        = some [("image", Yaml.str "docker.io/app:latest")] := rfl
    rw [ri_map_some _ _ _ _ _ hs, goPairsR_eq]
    simp [omapVals, ri_str]
  have hc := claim7_no_prefix "1.0" "P" "docker.io/app:latest" none
    [("image", Yaml.str "docker.io/app:latest")]
    [("image", Yaml.str "docker.io/app:latest")]
    (by decide) rfl hp
  exact ⟨by decide, rfl, hp, hc.1, fun h => hc.2.2 h⟩

/-! ### Claim C8: documents without any `image` key are fixed points -/

mutual

/-- No mapping anywhere in the value carries an `image` key. -/
def noImageY : Yaml → Bool
  | Yaml.map m => (getKey m "image").isNone && noImageM m
  | Yaml.seq l => noImageS l
  | _ => true

def noImageM : List (String × Yaml) → Bool
  | [] => true
  | kv :: rest => noImageY kv.2 && noImageM rest

def noImageS : List Yaml → Bool
  | [] => true
  | v :: rest => noImageY v && noImageS rest

end

theorem noImageM_mem {m : List (String × Yaml)} (h : noImageM m = true)
    {kv : String × Yaml} (hm : kv ∈ m) : noImageY kv.2 = true := by
  induction m with
  | nil => simp at hm
  | cons hd rest ih =>
      rw [noImageM] at h
      simp only [Bool.and_eq_true] at h
      rcases List.mem_cons.mp hm with hm | hm
      · subst hm
        exact h.1
      · exact ih h.2 hm

theorem noImageS_mem {l : List Yaml} (h : noImageS l = true)
    {v : Yaml} (hm : v ∈ l) : noImageY v = true := by
  induction l with
  | nil => simp at hm
  | cons hd rest ih =>
      rw [noImageS] at h
      simp only [Bool.and_eq_true] at h
      rcases List.mem_cons.mp hm with hm | hm
      · subst hm
        exact h.1
      · exact ih h.2 hm

theorem noImage_fix_aux (version policy : String) (org : Option String) :
    ∀ N d, ysize d ≤ N → noImageY d = true →
      replace_images version policy org d = some d ∧
      replace_images_inject version policy d = some d := by
  intro N
  induction N with
  | zero =>
      intro d hd
      have := one_le_ysize d
      omega
  | succ N ih =>
      intro d hd hni
      cases d with
      | str s => exact ⟨ri_str version policy org s, rii_str version policy s⟩
      | int n => exact ⟨ri_int version policy org n, rii_int version policy n⟩
      | bool b => exact ⟨ri_bool version policy org b, rii_bool version policy b⟩
      | null => exact ⟨ri_null version policy org, rii_null version policy⟩
      | seq l =>
          rw [noImageY] at hni
          have hfix : ∀ v ∈ l, replace_images version policy org v = some v ∧
              replace_images_inject version policy v = some v := by
            intro v hv
            apply ih v ?_ (noImageS_mem hni hv)
            have := ysize_lt_of_mem_seq l v hv
            rw [ysize] at hd
            omega
          constructor
          · rw [ri_seq, goItemsR_eq,
              omapList_fix _ _ (fun v hv => (hfix v hv).1)]
            rfl
          · rw [rii_seq, goItemsI_eq,
              omapList_fix _ _ (fun v hv => (hfix v hv).2)]
            rfl
      | map m =>
          rw [noImageY] at hni
          simp only [Bool.and_eq_true, Option.isNone_iff_eq_none] at hni
          have hfix : ∀ kv ∈ m, (replace_images version policy org kv.2 = some kv.2 ∧
              replace_images_inject version policy kv.2 = some kv.2) := by
            intro kv hkv
            apply ih kv.2 ?_ (noImageM_mem hni.2 hkv)
            have := ysize_lt_of_mem_map m kv hkv
            rw [ysize] at hd
            omega
          constructor
          · rw [ri_map_some version policy org m m
              (mapStepR_no_image version policy org m hni.1), goPairsR_eq,
              omapVals_fix _ _ (fun kv hkv => (hfix kv hkv).1)]
            rfl
          · rw [rii_map_some version policy m m
              (mapStepI_no_image version policy m hni.1), goPairsI_eq,
              omapVals_fix _ _ (fun kv hkv => (hfix kv hkv).2)]
            rfl

/-- Claim C8: a document with no `image` key anywhere is returned unchanged
by the traversal of either variant, for every configuration. -/
theorem claim8_roundtrip (version policy : String) (org : Option String)
    (d : Yaml) (h : noImageY d = true) :
    replace_images version policy org d = some d ∧
    replace_images_inject version policy d = some d :=
  noImage_fix_aux version policy org (ysize d) d (Nat.le_refl _) h

theorem claim8_witness :
    noImageY (Yaml.map [("spec", Yaml.seq [Yaml.str "a", Yaml.int 1,
        Yaml.map [("replicas", Yaml.int 3)]])]) = true ∧
    (replace_images "1.2.3" "Always" (some "quay.io/x")
        (Yaml.map [("spec", Yaml.seq [Yaml.str "a", Yaml.int 1,
          Yaml.map [("replicas", Yaml.int 3)]])])
      = some (Yaml.map [("spec", Yaml.seq [Yaml.str "a", Yaml.int 1,
          Yaml.map [("replicas", Yaml.int 3)]])]) ∧
     replace_images_inject "1.2.3" "Always"
        (Yaml.map [("spec", Yaml.seq [Yaml.str "a", Yaml.int 1,
          Yaml.map [("replicas", Yaml.int 3)]])])
      = some (Yaml.map [("spec", Yaml.seq [Yaml.str "a", Yaml.int 1,
          Yaml.map [("replicas", Yaml.int 3)]])])) :=
  ⟨rfl, claim8_roundtrip "1.2.3" "Always" (some "quay.io/x")
    (Yaml.map [("spec", Yaml.seq [Yaml.str "a", Yaml.int 1,
      Yaml.map [("replicas", Yaml.int 3)]])]) rfl⟩

/-! ### Claim C10: non-string image values -/

mutual

/-- Every `image` key in the document maps to a string scalar. -/
def allImagesStr : Yaml → Bool
  | Yaml.map m =>
      (match getKey m "image" with
       | some w => (asStr w).isSome
       | none => true) && allImagesStrM m
  | Yaml.seq l => allImagesStrS l
  | _ => true

def allImagesStrM : List (String × Yaml) → Bool
  | [] => true
  | kv :: rest => allImagesStr kv.2 && allImagesStrM rest

def allImagesStrS : List Yaml → Bool
  | [] => true
  | v :: rest => allImagesStr v && allImagesStrS rest

end

/-- The document contains, somewhere, a mapping whose `image` value is not a
string scalar. -/
def hasNonStrImage (d : Yaml) : Bool := !(allImagesStr d)

theorem allImagesStrM_mem {m : List (String × Yaml)} (h : allImagesStrM m = true)
    {kv : String × Yaml} (hm : kv ∈ m) : allImagesStr kv.2 = true := by
  induction m with
  | nil => simp at hm
  | cons hd rest ih =>
      rw [allImagesStrM] at h
      simp only [Bool.and_eq_true] at h
      rcases List.mem_cons.mp hm with hm | hm
      · subst hm
        exact h.1
      · exact ih h.2 hm

theorem allImagesStrS_mem {l : List Yaml} (h : allImagesStrS l = true)
    {v : Yaml} (hm : v ∈ l) : allImagesStr v = true := by
  induction l with
  | nil => simp at hm
  | cons hd rest ih =>
      rw [allImagesStrS] at h
      simp only [Bool.and_eq_true] at h
      rcases List.mem_cons.mp hm with hm | hm
      · subst hm
        exact h.1
      · exact ih h.2 hm

theorem ysize_lt_of_mem_setKey2 (m : List (String × Yaml)) (a b x y : String)
    (kv : String × Yaml)
    (h : kv ∈ setKey (setKey m a (Yaml.str x)) b (Yaml.str y)) :
    ysize kv.2 < ysize (Yaml.map m) := by
  rcases mem_setKey _ _ _ _ h with h1 | h1
  · rw [h1]
    simp [ysize]
    try omega
  · rcases mem_setKey _ _ _ _ h1 with h2 | h2
    · rw [h2]
      simp [ysize]
      try omega
    · rw [ysize]
      exact ysize_lt_of_mem_map m kv h2

theorem allStr_success_aux (version policy : String) (org : Option String) :
    ∀ N d, ysize d ≤ N → allImagesStr d = true →
      (replace_images version policy org d).isSome = true ∧
      (replace_images_inject version policy d).isSome = true := by
  intro N
  induction N with
  | zero =>
      intro d hd
      have := one_le_ysize d
      omega
  | succ N ih =>
      intro d hd hni
      cases d with
      | str s => rw [ri_str, rii_str]; exact ⟨rfl, rfl⟩
      | int n => rw [ri_int, rii_int]; exact ⟨rfl, rfl⟩
      | bool b => rw [ri_bool, rii_bool]; exact ⟨rfl, rfl⟩
      | null => rw [ri_null, rii_null]; exact ⟨rfl, rfl⟩
      | seq l =>
          rw [allImagesStr] at hni
          have hok : ∀ v ∈ l, (replace_images version policy org v).isSome = true ∧
              (replace_images_inject version policy v).isSome = true := by
            intro v hv
            apply ih v ?_ (allImagesStrS_mem hni hv)
            have := ysize_lt_of_mem_seq l v hv
            rw [ysize] at hd
            omega
          constructor
          · rw [ri_seq, goItemsR_eq]
            have := omapList_isSome (replace_images version policy org) l
              (fun v hv => (hok v hv).1)
            obtain ⟨l2, hl2⟩ := Option.isSome_iff_exists.mp this
            rw [hl2]
            rfl
          · rw [rii_seq, goItemsI_eq]
            have := omapList_isSome (replace_images_inject version policy) l
              (fun v hv => (hok v hv).2)
            obtain ⟨l2, hl2⟩ := Option.isSome_iff_exists.mp this
            rw [hl2]
            rfl
      | map m =>
          rw [allImagesStr] at hni
          simp only [Bool.and_eq_true] at hni
          have hok : ∀ kv ∈ m, (replace_images version policy org kv.2).isSome = true ∧
              (replace_images_inject version policy kv.2).isSome = true := by
            intro kv hkv
            apply ih kv.2 ?_ (allImagesStrM_mem hni.2 hkv)
            have := ysize_lt_of_mem_map m kv hkv
            rw [ysize] at hd
            omega
          cases him : getKey m "image" with
          | none =>
              constructor
              · rw [ri_map_some version policy org m m
                  (mapStepR_no_image version policy org m him), goPairsR_eq]
                have := omapVals_isSome (replace_images version policy org) m
                  (fun kv hkv => (hok kv hkv).1)
                obtain ⟨m2, hm2⟩ := Option.isSome_iff_exists.mp this
                rw [hm2]
                rfl
              · rw [rii_map_some version policy m m
                  (mapStepI_no_image version policy m him), goPairsI_eq]
                have := omapVals_isSome (replace_images_inject version policy) m
                  (fun kv hkv => (hok kv hkv).2)
                obtain ⟨m2, hm2⟩ := Option.isSome_iff_exists.mp this
                rw [hm2]
                rfl
          | some w =>
              rw [him] at hni
              have hw : ∃ s, w = Yaml.str s := by
                have h1 : (asStr w).isSome = true := hni.1
                cases hs : asStr w with
                | none => rw [hs] at h1; simp at h1
                | some s => exact ⟨s, asStr_some hs⟩
              obtain ⟨s, hws⟩ := hw
              subst hws
              have hsetVals : ∀ (a b x y : String) (kv : String × Yaml),
                  kv ∈ setKey (setKey m a (Yaml.str x)) b (Yaml.str y) →
                  (replace_images version policy org kv.2).isSome = true ∧
                  (replace_images_inject version policy kv.2).isSome = true := by
                intro a b x y kv hkv
                rcases mem_setKey _ _ _ _ hkv with h1 | h1
                · rw [h1, ri_str, rii_str]
                  exact ⟨rfl, rfl⟩
                · rcases mem_setKey _ _ _ _ h1 with h2 | h2
                  · rw [h2, ri_str, rii_str]
                    exact ⟨rfl, rfl⟩
                  · exact hok kv h2
              constructor
              · by_cases hd : is_drogue_image s = true
                · rw [ri_map_some version policy org m _
                    (mapStepR_match version policy org m s him hd), goPairsR_eq]
                  have hsome := omapVals_isSome (replace_images version policy org)
                    (setKey (setKey m "image"
                        (Yaml.str (translate_image org version s)))
                      "imagePullPolicy" (Yaml.str policy))
                    (fun kv hkv => (hsetVals "image" "imagePullPolicy"
                      (translate_image org version s) policy kv hkv).1)
                  obtain ⟨m2, hm2⟩ := Option.isSome_iff_exists.mp hsome
                  rw [hm2]
                  rfl
                · have hd2 : is_drogue_image s = false := by simpa using hd
                  rw [ri_map_some version policy org m m
                    (mapStepR_no_match version policy org m s him hd2), goPairsR_eq]
                  have := omapVals_isSome (replace_images version policy org) m
                    (fun kv hkv => (hok kv hkv).1)
                  obtain ⟨m2, hm2⟩ := Option.isSome_iff_exists.mp this
                  rw [hm2]
                  rfl
              · rw [rii_map_some version policy m _
                  (mapStepI_image version policy m s him), goPairsI_eq]
                have hsome := omapVals_isSome (replace_images_inject version policy)
                  (setKey (setKey m "image"
                      (Yaml.str (translate_image_inject version s)))
                    "imagePullPolicy" (Yaml.str policy))
                  (fun kv hkv => (hsetVals "image" "imagePullPolicy"
                    (translate_image_inject version s) policy kv hkv).2)
                obtain ⟨m2, hm2⟩ := Option.isSome_iff_exists.mp hsome
                rw [hm2]
                rfl

/-- Claim C10, counterexample: this document contains a mapping whose
`image` value is a non-string (the integer 5), yet processing completes in
both variants instead of failing: the offending mapping sits under a
pre-existing `imagePullPolicy` key, which the traversal overwrites with the
policy string before recursing into the dict's values, so the mapping is
never visited. -/
theorem claim10_counterexample :
    hasNonStrImage (Yaml.map [("image", Yaml.str "ghcr.io/drogue-iot/a:latest"),
        ("imagePullPolicy", Yaml.map [("image", Yaml.int 5)])]) = true ∧
    (replace_images "1.2.3" "Always" none
        (Yaml.map [("image", Yaml.str "ghcr.io/drogue-iot/a:latest"),
          ("imagePullPolicy", Yaml.map [("image", Yaml.int 5)])])).isSome = true ∧
    (replace_images_inject "1.2.3" "Always"
        (Yaml.map [("image", Yaml.str "ghcr.io/drogue-iot/a:latest"),
          ("imagePullPolicy", Yaml.map [("image", Yaml.int 5)])])).isSome = true := by
  refine ⟨rfl, ?_, ?_⟩
  · have hs : mapStepR "1.2.3" "Always" none
        [("image", Yaml.str "ghcr.io/drogue-iot/a:latest"),
          ("imagePullPolicy", Yaml.map [("image", Yaml.int 5)])]
        = some [("image", Yaml.str "ghcr.io/drogue-iot/a:1.2.3"),
          ("imagePullPolicy", Yaml.str "Always")] := rfl
    rw [ri_map_some _ _ _ _ _ hs, goPairsR_eq]
    simp [omapVals, ri_str]
  · have hs : mapStepI "1.2.3" "Always"
        [("image", Yaml.str "ghcr.io/drogue-iot/a:latest"),
          ("imagePullPolicy", Yaml.map [("image", Yaml.int 5)])]
        = some [("image", Yaml.str "ghcr.io/drogue-iot/a:1.2.3"),
          ("imagePullPolicy", Yaml.str "Always")] := rfl
    rw [rii_map_some _ _ _ _ hs, goPairsI_eq]
    simp [omapVals, rii_str]

/-- Claim C10, amended: processing a mapping whose own `image` value is a
non-string fails (the model of the uncaught `AttributeError`), so a document
fails whenever such a mapping is actually visited; a document may still
complete when the offending mapping is destroyed by the pull-policy
overwrite before the traversal reaches it (see the counterexample).  Under
the precondition that every `image` value in the document is a string,
processing completes in both variants. -/
theorem claim10_amended (version policy : String) (org : Option String)
    (m : List (String × Yaml)) (w : Yaml) (d : Yaml)
    (him : getKey m "image" = some w) (hw : asStr w = none)
    (hall : allImagesStr d = true) :
    replace_images version policy org (Yaml.map m) = none ∧
    replace_images_inject version policy (Yaml.map m) = none ∧
    (replace_images version policy org d).isSome = true ∧
    (replace_images_inject version policy d).isSome = true := by
  refine ⟨ri_map_none version policy org m
      (mapStepR_nonstr version policy org m w him hw),
    rii_map_none version policy m
      (mapStepI_nonstr version policy m w him hw), ?_, ?_⟩
  · exact (allStr_success_aux version policy org (ysize d) d (Nat.le_refl _) hall).1
  · exact (allStr_success_aux version policy org (ysize d) d (Nat.le_refl _) hall).2

theorem claim10_witness :
    getKey [("image", Yaml.null)] "image" = some Yaml.null ∧
    asStr Yaml.null = none ∧
    allImagesStr (Yaml.map [("image", Yaml.str "x:latest")]) = true ∧
    (replace_images "7.0" "Never" none (Yaml.map [("image", Yaml.null)]) = none ∧
     replace_images_inject "7.0" "Never" (Yaml.map [("image", Yaml.null)]) = none ∧
     (replace_images "7.0" "Never" none
        (Yaml.map [("image", Yaml.str "x:latest")])).isSome = true ∧
     (replace_images_inject "7.0" "Never"
        (Yaml.map [("image", Yaml.str "x:latest")])).isSome = true) :=
  ⟨rfl, rfl, rfl,
    claim10_amended "7.0" "Never" none [("image", Yaml.null)] Yaml.null
      (Yaml.map [("image", Yaml.str "x:latest")]) rfl rfl rfl⟩

/-! ### Claim C9: lemmas about the shape of rewritten image strings -/

theorem pyEndswith_append_left (a b t : String) (h : pyEndswith b t = true) :
    pyEndswith (a ++ b) t = true := by
  rw [pyEndswith_iff] at h ⊢
  rw [String.data_append]
  exact h.trans (List.suffix_append _ _)

theorem is_drogue_parts {s : String} (h : is_drogue_image s = true) :
    pyStartswith s ghcrPfx = true ∧ pyEndswith s latestSfx = true := by
  unfold is_drogue_image at h
  by_cases h1 : pyStartswith s ghcrPfx = true
  · by_cases h2 : pyEndswith s latestSfx = true
    · exact ⟨h1, h2⟩
    · rw [h1] at h
      simp at h
      exact absurd h h2
  · simp at h1
    rw [h1] at h
    simp at h
  
theorem is_drogue_no_latest {s : String} (h : pyEndswith s latestSfx = false) :
    is_drogue_image s = false := by
  unfold is_drogue_image
  by_cases h1 : pyStartswith s ghcrPfx = true
  · rw [h1, h]
    rfl
  · simp at h1
    rw [h1]
    rfl

/-- The earliest rewrite rule never outputs a `:latest` image (given that
the version itself cannot recreate the marker), so it is idempotent at the
string level. -/
theorem translate_inject_no_latest (version s : String)
    (hv : pyEndswith (":" ++ version) latestSfx = false) :
    pyEndswith (translate_image_inject version s) latestSfx = false := by
  by_cases he : pyEndswith s ":latest" = true
  · have hform : translate_image_inject version s =
        pySliceToNeg s ((":latest" : String).length) ++ ":" ++ version := by
      unfold translate_image_inject
      simp [he]
    rw [hform]
    exact endswith_tag_false version hv _
  · have he2 : pyEndswith s ":latest" = false := by simpa using he
    rw [translate_inject_id he2]
    exact he2

/-- On a recognized drogue image the later rewrite rule produces a string of
the form `X ++ ":" ++ version`. -/
theorem translate_drogue_form (org : Option String) (version s : String)
    (hd : is_drogue_image s = true) :
    ∃ X, translate_image org version s = X ++ ":" ++ version := by
  obtain ⟨hstart, hend⟩ := is_drogue_parts hd
  unfold translate_image
  by_cases hc : (orgActive org && pyStartswith s ghcrPfx) = true
  · rw [if_pos hc]
    have h1 : pyEndswith (pyDropN s ghcrPfx.length) latestSfx = true :=
      endswith_after_drop hstart hend
    have h2 : pyEndswith (org.getD "" ++ pyDropN s ghcrPfx.length) latestSfx = true :=
      pyEndswith_append_left _ _ _ h1
    rw [if_pos h2]
    exact ⟨_, rfl⟩
  · rw [if_neg hc, if_pos hend]
    exact ⟨_, rfl⟩

/-- The later rewrite rule never outputs a `:latest` image on a recognized
drogue image. -/
theorem translate_drogue_no_latest (org : Option String) (version s : String)
    (hv : pyEndswith (":" ++ version) latestSfx = false)
    (hd : is_drogue_image s = true) :
    pyEndswith (translate_image org version s) latestSfx = false := by
  obtain ⟨X, hX⟩ := translate_drogue_form org version s hd
  rw [hX]
  exact endswith_tag_false version hv X

theorem idemR_aux (version policy : String) (org : Option String)
    (hv : pyEndswith (":" ++ version) latestSfx = false) :
    ∀ N d, ysize d ≤ N → ∀ d', replace_images version policy org d = some d' →
      replace_images version policy org d' = some d' := by
  intro N
  induction N with
  | zero =>
      intro d hd
      have := one_le_ysize d
      omega
  | succ N ih =>
      intro d hd d' hrep
      cases d with
      | str s =>
          rw [ri_str] at hrep
          simp only [Option.some.injEq] at hrep
          subst hrep
          exact ri_str version policy org s
      | int n =>
          rw [ri_int] at hrep
          simp only [Option.some.injEq] at hrep
          subst hrep
          exact ri_int version policy org n
      | bool b =>
          rw [ri_bool] at hrep
          simp only [Option.some.injEq] at hrep
          subst hrep
          exact ri_bool version policy org b
      | null =>
          rw [ri_null] at hrep
          simp only [Option.some.injEq] at hrep
          subst hrep
          exact ri_null version policy org
      | seq l =>
          rw [ri_seq, goItemsR_eq] at hrep
          cases hgo : omapList (replace_images version policy org) l with
          | none => rw [hgo] at hrep; exact absurd hrep (by simp)
          | some l2 =>
              rw [hgo] at hrep
              simp only [Option.map_some', Option.some.injEq] at hrep
              subst hrep
              have hfix : omapList (replace_images version policy org) l2 = some l2 := by
                apply omapList_fix
                intro y hy
                obtain ⟨v, hv1, hv2⟩ := omapList_mem _ _ _ hgo y hy
                apply ih v ?_ y hv2
                have hb := ysize_lt_of_mem_seq l v hv1
                rw [ysize] at hd
                omega
              rw [ri_seq, goItemsR_eq, hfix]
              rfl
      | map m =>
          obtain ⟨m1, m2, hstep, hgo, hy⟩ := replace_map_inv version policy org m d' hrep
          subst hy
          cases him : getKey m "image" with
          | none =>
              rw [mapStepR_no_image version policy org m him] at hstep
              simp only [Option.some.injEq] at hstep
              subst hstep
              have him2 : getKey m2 "image" = none :=
                omapVals_getKey_none _ _ _ hgo _ him
              have hfix : omapVals (replace_images version policy org) m2 = some m2 := by
                apply omapVals_fix
                intro kv hkv
                obtain ⟨v, hv1, hv2⟩ := omapVals_mem _ _ _ hgo kv hkv
                apply ih v ?_ kv.2 hv2
                have hb : ysize v < 3 + msize m := ysize_lt_of_mem_map m (kv.1, v) hv1
                rw [ysize] at hd
                omega
              rw [ri_map_some version policy org m2 m2
                (mapStepR_no_image version policy org m2 him2), goPairsR_eq, hfix]
              rfl
          | some w =>
              cases hs : asStr w with
              | none =>
                  rw [mapStepR_nonstr version policy org m w him hs] at hstep
                  exact absurd hstep (by simp)
              | some s =>
                  have hws := asStr_some hs
                  subst hws
                  by_cases hdro : is_drogue_image s = true
                  · rw [mapStepR_match version policy org m s him hdro] at hstep
                    simp only [Option.some.injEq] at hstep
                    subst hstep
                    have hk1 : getKey (setKey (setKey m "image"
                        (Yaml.str (translate_image org version s))) "imagePullPolicy"
                        (Yaml.str policy)) "image"
                        = some (Yaml.str (translate_image org version s)) := by
                      rw [getKey_setKey_of_ne _ _ _ _ (by decide), getKey_setKey_same]
                    obtain ⟨v', hv1, hv2⟩ := omapVals_getKey _ _ _ hgo _ _ hk1
                    rw [ri_str] at hv1
                    simp only [Option.some.injEq] at hv1
                    subst hv1
                    have hts : is_drogue_image (translate_image org version s) = false :=
                      is_drogue_no_latest (translate_drogue_no_latest org version s hv hdro)
                    have hfix : omapVals (replace_images version policy org) m2 = some m2 := by
                      apply omapVals_fix
                      intro kv hkv
                      obtain ⟨v, hvv1, hvv2⟩ := omapVals_mem _ _ _ hgo kv hkv
                      apply ih v ?_ kv.2 hvv2
                      have hb : ysize v < ysize (Yaml.map m) :=
                        ysize_lt_of_mem_setKey2 m "image" "imagePullPolicy"
                          (translate_image org version s) policy (kv.1, v) hvv1
                      omega
                    rw [ri_map_some version policy org m2 m2
                      (mapStepR_no_match version policy org m2
                        (translate_image org version s) hv2 hts), goPairsR_eq, hfix]
                    rfl
                  · have hdro2 : is_drogue_image s = false := by simpa using hdro
                    rw [mapStepR_no_match version policy org m s him hdro2] at hstep
                    simp only [Option.some.injEq] at hstep
                    subst hstep
                    obtain ⟨v', hv1, hv2⟩ := omapVals_getKey _ _ _ hgo _ _ him
                    rw [ri_str] at hv1
                    simp only [Option.some.injEq] at hv1
                    subst hv1
                    have hfix : omapVals (replace_images version policy org) m2 = some m2 := by
                      apply omapVals_fix
                      intro kv hkv
                      obtain ⟨v, hvv1, hvv2⟩ := omapVals_mem _ _ _ hgo kv hkv
                      apply ih v ?_ kv.2 hvv2
                      have hb : ysize v < 3 + msize m := ysize_lt_of_mem_map m (kv.1, v) hvv1
                      rw [ysize] at hd
                      omega
                    rw [ri_map_some version policy org m2 m2
                      (mapStepR_no_match version policy org m2 s hv2 hdro2),
                      goPairsR_eq, hfix]
                    rfl

theorem idemI_aux (version policy : String)
    (hv : pyEndswith (":" ++ version) latestSfx = false) :
    ∀ N d, ysize d ≤ N → ∀ d', replace_images_inject version policy d = some d' →
      replace_images_inject version policy d' = some d' := by
  intro N
  induction N with
  | zero =>
      intro d hd
      have := one_le_ysize d
      omega
  | succ N ih =>
      intro d hd d' hrep
      cases d with
      | str s =>
          rw [rii_str] at hrep
          simp only [Option.some.injEq] at hrep
          subst hrep
          exact rii_str version policy s
      | int n =>
          rw [rii_int] at hrep
          simp only [Option.some.injEq] at hrep
          subst hrep
          exact rii_int version policy n
      | bool b =>
          rw [rii_bool] at hrep
          simp only [Option.some.injEq] at hrep
          subst hrep
          exact rii_bool version policy b
      | null =>
          rw [rii_null] at hrep
          simp only [Option.some.injEq] at hrep
          subst hrep
          exact rii_null version policy
      | seq l =>
          rw [rii_seq, goItemsI_eq] at hrep
          cases hgo : omapList (replace_images_inject version policy) l with
          | none => rw [hgo] at hrep; exact absurd hrep (by simp)
          | some l2 =>
              rw [hgo] at hrep
              simp only [Option.map_some', Option.some.injEq] at hrep
              subst hrep
              have hfix : omapList (replace_images_inject version policy) l2 = some l2 := by
                apply omapList_fix
                intro y hy
                obtain ⟨v, hv1, hv2⟩ := omapList_mem _ _ _ hgo y hy
                apply ih v ?_ y hv2
                have hb := ysize_lt_of_mem_seq l v hv1
                rw [ysize] at hd
                omega
              rw [rii_seq, goItemsI_eq, hfix]
              rfl
      | map m =>
          obtain ⟨m1, m2, hstep, hgo, hy⟩ := inject_map_inv version policy m d' hrep
          subst hy
          cases him : getKey m "image" with
          | none =>
              rw [mapStepI_no_image version policy m him] at hstep
              simp only [Option.some.injEq] at hstep
              subst hstep
              have him2 : getKey m2 "image" = none :=
                omapVals_getKey_none _ _ _ hgo _ him
              have hfix : omapVals (replace_images_inject version policy) m2 = some m2 := by
                apply omapVals_fix
                intro kv hkv
                obtain ⟨v, hv1, hv2⟩ := omapVals_mem _ _ _ hgo kv hkv
                apply ih v ?_ kv.2 hv2
                have hb : ysize v < 3 + msize m := ysize_lt_of_mem_map m (kv.1, v) hv1
                rw [ysize] at hd
                omega
              rw [rii_map_some version policy m2 m2
                (mapStepI_no_image version policy m2 him2), goPairsI_eq, hfix]
              rfl
          | some w =>
              cases hs : asStr w with
              | none =>
                  rw [mapStepI_nonstr version policy m w him hs] at hstep
                  exact absurd hstep (by simp)
              | some s =>
                  have hws := asStr_some hs
                  subst hws
                  rw [mapStepI_image version policy m s him] at hstep
                  simp only [Option.some.injEq] at hstep
                  subst hstep
                  have hk1 : getKey (setKey (setKey m "image"
                      (Yaml.str (translate_image_inject version s))) "imagePullPolicy"
                      (Yaml.str policy)) "image"
                      = some (Yaml.str (translate_image_inject version s)) := by
                    rw [getKey_setKey_of_ne _ _ _ _ (by decide), getKey_setKey_same]
                  obtain ⟨v', hv1, hv2⟩ := omapVals_getKey _ _ _ hgo _ _ hk1
                  rw [rii_str] at hv1
                  simp only [Option.some.injEq] at hv1
                  subst hv1
                  have hp1 : getKey (setKey (setKey m "image"
                      (Yaml.str (translate_image_inject version s))) "imagePullPolicy"
                      (Yaml.str policy)) "imagePullPolicy"
                      = some (Yaml.str policy) := getKey_setKey_same _ _ _
                  obtain ⟨p', hp2, hp3⟩ := omapVals_getKey _ _ _ hgo _ _ hp1
                  rw [rii_str] at hp2
                  simp only [Option.some.injEq] at hp2
                  subst hp2
                  have hts : translate_image_inject version
                      (translate_image_inject version s)
                      = translate_image_inject version s :=
                    translate_inject_id (translate_inject_no_latest version s hv)
                  have hstep2 : mapStepI version policy m2 = some m2 := by
                    rw [mapStepI_image version policy m2
                      (translate_image_inject version s) hv2, hts,
                      setKey_of_getKey_eq m2 "image" _ hv2,
                      setKey_of_getKey_eq m2 "imagePullPolicy" _ hp3]
                  have hfix : omapVals (replace_images_inject version policy) m2 = some m2 := by
                    apply omapVals_fix
                    intro kv hkv
                    obtain ⟨v, hvv1, hvv2⟩ := omapVals_mem _ _ _ hgo kv hkv
                    apply ih v ?_ kv.2 hvv2
                    have hb : ysize v < ysize (Yaml.map m) :=
                      ysize_lt_of_mem_setKey2 m "image" "imagePullPolicy"
                        (translate_image_inject version s) policy (kv.1, v) hvv1
                    omega
                  rw [rii_map_some version policy m2 m2 hstep2, goPairsI_eq, hfix]
                  rfl

/-- Claim C9: when `":" ++ version` does not end with `:latest`, both
traversals are idempotent: re-processing an already processed document
returns it unchanged. -/
theorem claim9_idempotent (version policy : String) (org : Option String)
    (d d' e e' : Yaml)
    (hv : pyEndswith (":" ++ version) latestSfx = false)
    (h1 : replace_images version policy org d = some d')
    (h2 : replace_images_inject version policy e = some e') :
    replace_images version policy org d' = some d' ∧
    replace_images_inject version policy e' = some e' :=
  ⟨idemR_aux version policy org hv (ysize d) d (Nat.le_refl _) d' h1,
   idemI_aux version policy hv (ysize e) e (Nat.le_refl _) e' h2⟩

theorem claim9_witness :
    pyEndswith (":" ++ "5.1") latestSfx = false ∧
    replace_images "5.1" "IfNotPresent" none
        (Yaml.map [("image", Yaml.str "ghcr.io/drogue-iot/web:latest")])
      = some (Yaml.map [("image", Yaml.str "ghcr.io/drogue-iot/web:5.1"),
          ("imagePullPolicy", Yaml.str "IfNotPresent")]) ∧
    replace_images_inject "5.1" "IfNotPresent"
        (Yaml.map [("image", Yaml.str "redis:latest")])
      = some (Yaml.map [("image", Yaml.str "redis:5.1"),
          ("imagePullPolicy", Yaml.str "IfNotPresent")]) ∧
    (replace_images "5.1" "IfNotPresent" none
        (Yaml.map [("image", Yaml.str "ghcr.io/drogue-iot/web:5.1"),
          ("imagePullPolicy", Yaml.str "IfNotPresent")])
      = some (Yaml.map [("image", Yaml.str "ghcr.io/drogue-iot/web:5.1"),
          ("imagePullPolicy", Yaml.str "IfNotPresent")]) ∧
     replace_images_inject "5.1" "IfNotPresent"
        (Yaml.map [("image", Yaml.str "redis:5.1"),
          ("imagePullPolicy", Yaml.str "IfNotPresent")])
      = some (Yaml.map [("image", Yaml.str "redis:5.1"),
          ("imagePullPolicy", Yaml.str "IfNotPresent")])) := by
  have h1 : replace_images "5.1" "IfNotPresent" none
      (Yaml.map [("image", Yaml.str "ghcr.io/drogue-iot/web:latest")])
      = some (Yaml.map [("image", Yaml.str "ghcr.io/drogue-iot/web:5.1"),
          ("imagePullPolicy", Yaml.str "IfNotPresent")]) := by
    have hs : mapStepR "5.1" "IfNotPresent" none
        [("image", Yaml.str "ghcr.io/drogue-iot/web:latest")]
        = some [("image", Yaml.str "ghcr.io/drogue-iot/web:5.1"),
          ("imagePullPolicy", Yaml.str "IfNotPresent")] := rfl
    rw [ri_map_some _ _ _ _ _ hs, goPairsR_eq]
    simp [omapVals, ri_str]
  have h2 : replace_images_inject "5.1" "IfNotPresent"
      (Yaml.map [("image", Yaml.str "redis:latest")])
      = some (Yaml.map [("image", Yaml.str "redis:5.1"),
          ("imagePullPolicy", Yaml.str "IfNotPresent")]) := by
    have hs : mapStepI "5.1" "IfNotPresent" [("image", Yaml.str "redis:latest")]
        = some [("image", Yaml.str "redis:5.1"),
          ("imagePullPolicy", Yaml.str "IfNotPresent")] := rfl
    rw [rii_map_some _ _ _ _ hs, goPairsI_eq]
    simp [omapVals, rii_str]
  exact ⟨by decide, h1, h2,
    claim9_idempotent "5.1" "IfNotPresent" none _ _ _ _ (by decide) h1 h2⟩

end Drogue












